import Mathlib

/-!
Verification of the UDMF map editor (`omg/udmf.py`).

The development shallowly embeds:

* the UDMF grammar string `UDMF_GRAMMAR` together with the PEG semantics
  the tatsu library gives it (ordered choice with commit, the cut `~`,
  whitespace and comment skipping before every token, tatsu's `nameguard`
  for alphanumeric literal tokens that start with a letter),
* the semantic-action layer `UDMFSemantics`,
* the object model `UDMFObject` and its serializer,
* the editor `UDMFMapEditor` (`load`, `serialize`, `save`).

Python strings are modelled as `List Char`; lump bytes are modelled as
`List Char` as well (`decode('ascii')`/`encode('ascii')` become the
identity, which is faithful for the ASCII payloads the format uses).
Python's unbounded `int` is `Int`.  Python `float` objects are not
modelled: the `float` semantic action stores the matched literal and no
theorem below relies on float formatting.
-/

namespace UDMF

/-! ## Character classes

The classes below transcribe the regular expressions of `UDMF_GRAMMAR`
and the Python predicates tatsu consults (`str.isalnum`, `\s`). -/

/-- Whitespace per Python's `\s` (tatsu's default token skipper), ASCII range. -/
def isWs (c : Char) : Bool :=
  c = ' ' || c = '\t' || c = '\n' || c = '\r' || c = '\x0b' || c = '\x0c'

/-- ASCII letter, per `[A-Za-z]`. -/
def isLetter (c : Char) : Bool :=
  ('A' ≤ c && c ≤ 'Z') || ('a' ≤ c && c ≤ 'z')

/-- ASCII digit, per `[0-9]`. -/
def isDigitC (c : Char) : Bool :=
  '0' ≤ c && c ≤ '9'

/-- Nonzero ASCII digit, per `[1-9]`. -/
def isNzDigit (c : Char) : Bool :=
  '1' ≤ c && c ≤ '9'

/-- Hexadecimal digit, per `[0-9A-Fa-f]`. -/
def isHexDigit (c : Char) : Bool :=
  isDigitC c || ('A' ≤ c && c ≤ 'F') || ('a' ≤ c && c ≤ 'f')

/-- First character of `identifier`, per `[A-Za-z_]`. -/
def isIdentStart (c : Char) : Bool :=
  isLetter c || c = '_'

/-- Continuation character of `identifier`, per `[A-Za-z0-9_]`. -/
def isIdentChar (c : Char) : Bool :=
  isIdentStart c || isDigitC c

/-- Characters tatsu's `is_name_char` accepts (`str.isalnum`, ASCII range);
used by the `nameguard` check after an alphanumeric literal token. -/
def isNameChar (c : Char) : Bool :=
  isLetter c || isDigitC c

/-- Characters a `keyword` token may contain, per the negated class
`[^\x7b\x7d();"'\n\t ]+` of the grammar. -/
def isKeywordChar (c : Char) : Bool :=
  !(c = '{' || c = '}' || c = '(' || c = ')' || c = ';' ||
    c = '"' || c = '\'' || c = '\n' || c = '\t' || c = ' ')

/-! ## Comment and whitespace skipping

The grammar declares `@@comments :: /\\\*.*?\*\//` and
`@@eol_comments :: /\/\/.*?$/`.  Note that the first pattern, read as a
Python regular expression, matches a literal backslash followed by `*`
(the intended `/*` opener is over-escaped), up to the next `*/` on the
same line (`.` does not cross newlines; tatsu compiles the patterns with
`re.MULTILINE`, not `re.DOTALL`).  The second pattern matches `//` up to
the end of the line.  tatsu skips whitespace and both comment forms
before every token, repeating until no further progress is made. -/

/-- Scan for the earliest `*/` on the current line; implements the lazy
`.*?\*\//` part of the block-comment pattern.  Returns the text after the
terminator, or `none` when a newline or the end of input intervenes. -/
def scanClose : List Char → Option (List Char)
  | [] => none
  | a :: rest =>
    match rest with
    | [] => none
    | b :: rest2 =>
      if a = '*' ∧ b = '/' then some rest2
      else if a = '\n' then none
      else scanClose rest

/-- Match the (over-escaped) block-comment pattern `\\\*.*?\*\//`:
a literal `\`, a literal `*`, then lazily up to `*/` on the same line. -/
def matchBlockComment (s : List Char) : Option (List Char) :=
  match s with
  | a :: b :: rest => if a = '\\' ∧ b = '*' then scanClose rest else none
  | _ => none

/-- Match the end-of-line comment pattern `\/\/.*?$/`: `//` up to (not
including) the next newline. -/
def matchEolComment (s : List Char) : Option (List Char) :=
  match s with
  | a :: b :: rest =>
    if a = '/' ∧ b = '/' then some (rest.dropWhile (fun c => !(c = '\n')))
    else none
  | _ => none

/-- One fuelled pass of tatsu's `next_token` skipping: whitespace and the
two comment forms, iterated to a fixed point.  The fuel only serves
termination; `skip` below supplies one unit per input character, which is
always sufficient since every step consumes at least one character. -/
def skipF : Nat → List Char → List Char
  | 0, s => s
  | f + 1, s =>
    match s with
    | [] => []
    | c :: rest =>
      if isWs c then skipF f rest
      else
        match matchBlockComment (c :: rest) with
        | some r => skipF f r
        | none =>
          match matchEolComment (c :: rest) with
          | some r => skipF f r
          | none => c :: rest

/-- tatsu's `next_token`: skip whitespace and comments before a token. -/
def skip (s : List Char) : List Char :=
  skipF (s.length + 1) s

/-! ## Token matchers

Each matcher implements one token of the grammar directly on the text
(after `skip` has been applied by the caller), returning the matched
lexeme and the remaining input. -/

/-- tatsu `Buffer.match` for a literal token with `nameguard` (the
default, since the grammar has no `@@nameguard` directive): the token
must be a literal prefix of the input, and additionally, when the token
is alphanumeric and starts with a letter, the following character must
not be a name character.  Note the guard therefore does not apply to the
token `'0'`, whose first character is not a letter. -/
def litTok (tok : List Char) (s : List Char) : Option (List Char) :=
  if s.take tok.length = tok then
    let rest := s.drop tok.length
    if (tok.all isNameChar && !tok.isEmpty) && (match tok with
        | t :: _ => isLetter t
        | [] => false) && (match rest with
        | c :: _ => isNameChar c
        | [] => false)
    then none
    else some rest
  else none

/-- Match `identifier = /[A-Za-z_]+[A-Za-z0-9_]*/`: greedily, this is the
maximal run of identifier characters whose first character is a letter or
underscore. -/
def matchIdent (s : List Char) : Option (List Char × List Char) :=
  match s with
  | c :: rest =>
    if isIdentStart c then
      some (c :: rest.takeWhile isIdentChar, rest.dropWhile isIdentChar)
    else none
  | [] => none

/-- Optional sign, per `[+-]?`.  Returns the matched sign (zero or one
character) and the rest. -/
def takeSign (s : List Char) : List Char × List Char :=
  match s with
  | c :: rest => if c = '+' ∨ c = '-' then ([c], rest) else ([], s)
  | [] => ([], s)

/-- Match the float pattern `/[+-]?[0-9]+\.[0-9]*([eE][+-]?[0-9]+)?/`. -/
def matchFloat (s : List Char) : Option (List Char × List Char) :=
  let (sg, s1) := takeSign s
  let ds := s1.takeWhile isDigitC
  let s2 := s1.dropWhile isDigitC
  if ds.isEmpty then none
  else
    match s2 with
    | '.' :: s3 =>
      let fs := s3.takeWhile isDigitC
      let s4 := s3.dropWhile isDigitC
      let noExp := some (sg ++ ds ++ '.' :: fs, s4)
      match s4 with
      | e :: s5 =>
        if e = 'e' ∨ e = 'E' then
          let (esg, s6) := takeSign s5
          let eds := s6.takeWhile isDigitC
          if eds.isEmpty then noExp
          else some (sg ++ ds ++ '.' :: fs ++ e :: esg ++ eds, s6.dropWhile isDigitC)
        else noExp
      | [] => noExp
    | _ => none

/-- Match the second `integer` alternative `/[+-]?[1-9]+[0-9]*/` (as a
maximal munch this is: optional sign, a nonzero digit, then digits). -/
def matchIntPat2 (s : List Char) : Option (List Char × List Char) :=
  let (sg, s1) := takeSign s
  match s1 with
  | c :: rest =>
    if isNzDigit c then
      some (sg ++ c :: rest.takeWhile isDigitC, rest.dropWhile isDigitC)
    else none
  | [] => none

/-- Match the third `integer` alternative `/0[0-9]+/`. -/
def matchIntPat3 (s : List Char) : Option (List Char × List Char) :=
  match s with
  | c :: rest =>
    if c = '0' then
      match rest.takeWhile isDigitC with
      | [] => none
      | ds => some ('0' :: ds, rest.dropWhile isDigitC)
    else none
  | [] => none

/-- Match the fourth `integer` alternative `/0x[0-9A-Fa-f]+/`. -/
def matchIntPat4 (s : List Char) : Option (List Char × List Char) :=
  match s with
  | a :: b :: rest =>
    if a = '0' ∧ b = 'x' then
      match rest.takeWhile isHexDigit with
      | [] => none
      | ds => some ('0' :: 'x' :: ds, rest.dropWhile isHexDigit)
    else none
  | _ => none

/-- Match `integer = '0' | /[+-]?[1-9]+[0-9]*/ | /0[0-9]+/ | /0x[0-9A-Fa-f]+/`
as tatsu runs it: ordered choice, the literal token `'0'` first.  Since
`nameguard` does not protect `'0'` (it does not start with a letter), the
first alternative already succeeds on any input starting with `0`, so the
third and fourth alternatives are unreachable; they are kept for
fidelity. -/
def matchInt (s : List Char) : Option (List Char × List Char) :=
  match litTok ['0'] s with
  | some rest => some (['0'], rest)
  | none =>
    match matchIntPat2 s with
    | some r => some r
    | none =>
      match matchIntPat3 s with
      | some r => some r
      | none => matchIntPat4 s

/-- Body of `quoted_string = /"([^"\\]*(\\.[^"\\]*)*)"/` after the opening
quote: a sequence of ordinary characters (anything but `"` and `\`) and
escape pairs `\c` with `c ≠ '\n'` (the pattern's `.` does not match a
newline), terminated by the first unescaped `"`.  Returns the body and
the text after the closing quote. -/
def quotedBody : List Char → Option (List Char × List Char)
  | [] => none
  | c :: rest =>
    if c = '"' then some ([], rest)
    else if c = '\\' then
      match rest with
      | [] => none
      | d :: r2 =>
        if d = '\n' then none
        else
          match quotedBody r2 with
          | some (b, r3) => some (c :: d :: b, r3)
          | none => none
    else
      match quotedBody rest with
      | some (b, r3) => some (c :: b, r3)
      | none => none

/-- Match `quoted_string`, returning the whole lexeme including both
quotes (tatsu hands the full match to the semantic action). -/
def matchQuoted (s : List Char) : Option (List Char × List Char) :=
  match s with
  | c :: rest =>
    if c = '"' then
      match quotedBody rest with
      | some (b, r) => some ('"' :: b ++ ['"'], r)
      | none => none
    else none
  | [] => none

/-- Match `boolean = 'true' | 'false'` (literal tokens, nameguard applies
to both since they start with a letter). -/
def matchBool (s : List Char) : Option (List Char × List Char) :=
  match litTok ('t' :: 'r' :: 'u' :: 'e' :: []) s with
  | some rest => some ('t' :: 'r' :: 'u' :: 'e' :: [], rest)
  | none =>
    match litTok ('f' :: 'a' :: 'l' :: 's' :: 'e' :: []) s with
    | some rest => some ('f' :: 'a' :: 'l' :: 's' :: 'e' :: [], rest)
    | none => none

/-- Match `keyword = /[^\x7b\x7d();"'\n\t ]+/`. -/
def matchKeyword (s : List Char) : Option (List Char × List Char) :=
  match s.takeWhile isKeywordChar with
  | [] => none
  | tok => some (tok, s.dropWhile isKeywordChar)

/-! ## Values and the semantic-action layer -/

/-- Scalar values produced by `UDMFSemantics`.  `vfloat` records the
matched literal: the Python code converts it to an IEEE double, which is
not modelled here, and no theorem below depends on float values. -/
inductive Value where
  | vint : Int → Value
  | vfloat : List Char → Value
  | vbool : Bool → Value
  | vstr : List Char → Value
deriving DecidableEq, Repr

/-- Digit-string value, most significant digit first. -/
def digitsVal (l : List Char) : Nat :=
  l.foldl (fun a c => a * 10 + (c.toNat - '0'.toNat)) 0

/-- Python `int(s)`: an optional sign followed by a nonempty run of
decimal digits (underscore separators and surrounding whitespace, which
the grammar's lexemes never contain, are not modelled); anything else
raises `ValueError`.  In particular `int` rejects a `0x` prefix. -/
def pyInt (s : List Char) : Except (List Char) Int :=
  let p : List Char × List Char :=
    match s with
    | c :: rest => if c = '+' ∨ c = '-' then ([c], rest) else ([], s)
    | [] => ([], [])
  if p.2 ≠ [] ∧ p.2.all isDigitC then
    .ok (if p.1 = ['-'] then -(digitsVal p.2 : Int) else (digitsVal p.2 : Int))
  else .error s

/-- Python truthiness of a string: nonempty is `True`.  This is what
`UDMFSemantics.boolean` applies to the matched lexeme, so `bool('false')`
is `True`. -/
def pyBool (s : List Char) : Bool :=
  !s.isEmpty

/-- Python slice `s[1:-1]`, used by `UDMFSemantics.quoted_string`. -/
def pySlice1m1 (s : List Char) : List Char :=
  (s.drop 1).dropLast

/-! ## The parser

`PRes` distinguishes a backtrackable failure (tatsu `FailedParse`, caught
by choices and closures) from an aborting error: a failure after the cut
`~` (tatsu `FailedCut`), the `NotImplementedError` raised by
`UDMFSemantics.keyword`, or a `ValueError` from `int`.  Aborting errors
propagate through every combinator. -/

/-- Aborting parse errors. -/
inductive PErr where
  | failed : PErr
  | unsupportedKeyword : List Char → PErr
  | badLiteral : List Char → PErr
  | fuelOut : PErr
deriving DecidableEq, Repr

/-- Result of running one grammar rule at a position. -/
inductive PRes (α : Type) where
  | ok : α → List Char → PRes α
  | fail : PRes α
  | err : PErr → PRes α
deriving DecidableEq, Repr

/-- Rule `value = float | integer | quoted_string | boolean | keyword`
with the semantic actions applied, at an already-skipped position. -/
def parseValueCore (s : List Char) : PRes Value :=
  match matchFloat s with
  | some (tk, r) => .ok (.vfloat tk) r
  | none =>
    match matchInt s with
    | some (tk, r) =>
      (match pyInt tk with
       | .ok n => .ok (.vint n) r
       | .error _ => .err (.badLiteral tk))
    | none =>
      match matchQuoted s with
      | some (tk, r) => .ok (.vstr (pySlice1m1 tk)) r
      | none =>
        match matchBool s with
        | some (tk, r) => .ok (.vbool (pyBool tk)) r
        | none =>
          match matchKeyword s with
          | some (tk, _) => .err (.unsupportedKeyword tk)
          | none => .fail

/-- Rule `value` (with token skipping). -/
def parseValue (s : List Char) : PRes Value :=
  parseValueCore (skip s)

/-- Rule `assignment_expr = identifier '=' value ';'` at an
already-skipped position; the semantic action returns the one-entry dict
`{identifier: value}`, modelled as the pair. -/
def parseAssignCore (s0 : List Char) : PRes (List Char × Value) :=
  match matchIdent s0 with
  | none => .fail
  | some (id, s1) =>
    match litTok ['='] (skip s1) with
    | none => .fail
    | some s2 =>
      match parseValue s2 with
      | .ok v s3 =>
        (match litTok [';'] (skip s3) with
         | none => .fail
         | some s4 => .ok (id, v) s4)
      | .fail => .fail
      | .err e => .err e

/-- Rule `assignment_expr`. -/
def parseAssignment (s : List Char) : PRes (List Char × Value) :=
  parseAssignCore (skip s)

/-- Rule `expr_list = { assignment_expr }`: a closure, stopping at the
first backtrackable failure.  The fuel only serves termination; every
iteration consumes at least one character, so the caller's
`length + 1` budget is never exhausted. -/
def parseExprList : Nat → List Char → PRes (List (List Char × Value))
  | 0, _ => .err .fuelOut
  | f + 1, s =>
    match parseAssignment s with
    | .ok a r =>
      (match parseExprList f r with
       | .ok l r2 => .ok (a :: l) r2
       | .fail => .fail
       | .err e => .err e)
    | .fail => .ok [] s
    | .err e => .err e

/-! ## Object model -/

/-- The Python classes a block can be instantiated as:
`UDMF_BLOCK_TYPES` plus the generic fallback `UDMFObject`. -/
inductive BlockClass where
  | thing | vertex | linedef | sidedef | sector | generic
deriving DecidableEq, Repr

/-- `UDMFSemantics.UDMF_BLOCK_TYPES.get(name, UDMFObject)`: case-sensitive
exact lookup with the generic class as default. -/
def blockTypes (id : List Char) : BlockClass :=
  if id = "thing".data then .thing
  else if id = "vertex".data then .vertex
  else if id = "linedef".data then .linedef
  else if id = "sidedef".data then .sidedef
  else if id = "sector".data then .sector
  else .generic

/-- A constructed `UDMFObject` (or typed subclass): the Python class, the
`name` field, and the attribute dict together with the `_attributes` key
order (a single ordered association list, since dict keys are unique). -/
structure UDMFObject where
  cls : BlockClass
  name : Value
  attrs : List (List Char × Value)
deriving DecidableEq, Repr

/-- Association-list lookup (Python `dict` read). -/
def assocLookup (d : List (List Char × Value)) (k : List Char) : Option Value :=
  match d with
  | [] => none
  | (k0, v) :: rest => if k0 = k then some v else assocLookup rest k

/-- Python `dict.update({k: v})`: replace in place when the key exists
(keeping its position), else append. -/
def dictUpdate (d : List (List Char × Value)) (k : List Char) (v : Value) :
    List (List Char × Value) :=
  match d with
  | [] => [(k, v)]
  | (k0, v0) :: rest =>
    if k0 = k then (k0, v) :: rest else (k0, v0) :: dictUpdate rest k v

/-- Fold a sequence of one-entry dicts into one dict by successive
`update` calls, as `UDMFSemantics.block` does. -/
def dictFold (ps : List (List Char × Value)) : List (List Char × Value) :=
  ps.foldl (fun d p => dictUpdate d p.1 p.2) []

/-- `UDMFObject.__init__(attributes, name)`: store `name`, then `setattr`
every attribute in dict order.  An attribute literally called `name`
overwrites the `name` field (with its value, of any scalar type); the
original block identifier is then lost. -/
def mkUDMFObject (cls : BlockClass) (attributes : List (List Char × Value))
    (name : List Char) : UDMFObject :=
  { cls := cls
    name := match assocLookup attributes ("name".data) with
            | some v => v
            | none => .vstr name
    attrs := attributes }

/-- `UDMFSemantics.block`: merge the assignment dicts, then instantiate
the class registered for the block identifier (generic fallback). -/
def blockSemantics (name : List Char) (assignments : List (List Char × Value)) :
    UDMFObject :=
  mkUDMFObject (blockTypes name) (dictFold assignments) name

/-- Rule `block = identifier '{' ~ expr_list '}'` at an already-skipped
position.  After the cut `~`, a backtrackable failure becomes an
aborting error (tatsu `FailedCut`). -/
def parseBlockCore (s0 : List Char) : PRes UDMFObject :=
  match matchIdent s0 with
  | none => .fail
  | some (id, s1) =>
    match litTok ['{'] (skip s1) with
    | none => .fail
    | some s2 =>
      match parseExprList (s2.length + 1) s2 with
      | .ok assigns s3 =>
        (match litTok ['}'] (skip s3) with
         | none => .err .failed
         | some s4 => .ok (blockSemantics id assigns) s4)
      | .fail => .err .failed
      | .err e => .err e

/-- Rule `block`. -/
def parseBlock (s : List Char) : PRes UDMFObject :=
  parseBlockCore (skip s)

/-- A parsed top-level node: a global assignment dict or a block object
(what `UDMFMapEditor._parse` partitions on). -/
inductive GNode where
  | asgn : List Char → Value → GNode
  | blk : UDMFObject → GNode
deriving DecidableEq, Repr

/-- Rule `global_expr = block | assignment_expr` (ordered choice; a
backtrackable failure of `block` before its cut tries the second
alternative). -/
def parseGlobalExpr (s : List Char) : PRes GNode :=
  match parseBlock s with
  | .ok o r => .ok (.blk o) r
  | .fail =>
    (match parseAssignment s with
     | .ok p r => .ok (.asgn p.1 p.2) r
     | .fail => .fail
     | .err e => .err e)
  | .err e => .err e

/-- Rule `global_expr_list = { global_expr }` (fuelled closure, as for
`expr_list`). -/
def parseGEL : Nat → List Char → PRes (List GNode)
  | 0, _ => .err .fuelOut
  | f + 1, s =>
    match parseGlobalExpr s with
    | .ok n r =>
      (match parseGEL f r with
       | .ok l r2 => .ok (n :: l) r2
       | .fail => .fail
       | .err e => .err e)
    | .fail => .ok [] s
    | .err e => .err e

/-- `translation_unit = global_expr_list $`, i.e.
`UDMF_PARSER.parse(text, semantics=UDMFSemantics())`: run the top-level
closure, then require end of input (after skipping trailing whitespace
and comments). -/
def udmfParse (s : List Char) : Except PErr (List GNode) :=
  match parseGEL (s.length + 1) s with
  | .ok nodes r => if skip r = [] then .ok nodes else .error .failed
  | .fail => .error .failed
  | .err e => .error e

/-! ## Serialization -/

/-- The decimal digit characters. -/
def digitChar : Nat → Char
  | 0 => '0' | 1 => '1' | 2 => '2' | 3 => '3' | 4 => '4'
  | 5 => '5' | 6 => '6' | 7 => '7' | 8 => '8' | _ => '9'

/-- Decimal digits of `n`, most significant first (fuelled; the fuel
`n + 1` always covers the digit count). -/
def natReprF : Nat → Nat → List Char
  | 0, _ => []
  | f + 1, n =>
    if n < 10 then [digitChar n]
    else natReprF f (n / 10) ++ [digitChar (n % 10)]

/-- Decimal representation of a natural number, no leading zeros. -/
def natRepr (n : Nat) : List Char :=
  natReprF (n + 1) n

/-- Python `str()` of an `int`. -/
def intRepr (n : Int) : List Char :=
  if n < 0 then '-' :: natRepr n.natAbs else natRepr n.natAbs

/-- Value formatting inside `UDMFObject.serialize_assignment`: strings
are wrapped in double quotes with no re-escaping, booleans print as the
words `true`/`false`, integers in decimal.  The float branch would call
Python `str()` on the IEEE double; it is represented by the stored
literal and no theorem relies on it. -/
def fmtValue : Value → List Char
  | .vstr s => '"' :: s ++ ['"']
  | .vbool b => if b then 't' :: 'r' :: 'u' :: 'e' :: [] else 'f' :: 'a' :: 'l' :: 's' :: 'e' :: []
  | .vint n => intRepr n
  | .vfloat lit => lit

/-- `UDMFObject.serialize_assignment(key, value)`, i.e.
`'{} = {};'.format(key, value)` after the type-directed formatting. -/
def serAssign (k : List Char) (v : Value) : List Char :=
  k ++ ' ' :: '=' :: ' ' :: fmtValue v ++ [';']

/-- Python `str()` of the scalars that can end up in the `name` field
(note `str(True)` is `True`, capitalized, unlike the serializer's
boolean branch). -/
def pyStrValue : Value → List Char
  | .vstr s => s
  | .vbool b => if b then 'T' :: 'r' :: 'u' :: 'e' :: [] else 'F' :: 'a' :: 'l' :: 's' :: 'e' :: []
  | .vint n => intRepr n
  | .vfloat lit => lit

/-- Python `'\n'.join(...)`. -/
def joinNL : List (List Char) → List Char
  | [] => []
  | [x] => x
  | x :: xs => x ++ '\n' :: joinNL xs

/-- `UDMFObject.serialize()`: the format string
`'{name}\n{{\n{attributes}\n}}\n'` with the attribute lines joined by
newlines in `_attributes` order. -/
def serObj (o : UDMFObject) : List Char :=
  pyStrValue o.name ++ '\n' :: '{' :: '\n' ::
    joinNL (o.attrs.map (fun p => serAssign p.1 p.2)) ++ '\n' :: '}' :: '\n' :: []

/-- The parsed map document: the `_meta` dict and the `_nodes` list of
`UDMFMapEditor`. -/
structure Doc where
  meta : List (List Char × Value)
  nodes : List UDMFObject
deriving DecidableEq, Repr

/-- `UDMFMapEditor.serialize()`: `'\n'.join([meta, nodes])` where `meta`
joins the global assignment lines and `nodes` joins the serialized
blocks. -/
def serDoc (d : Doc) : List Char :=
  joinNL (d.meta.map (fun p => serAssign p.1 p.2)) ++
    '\n' :: joinNL (d.nodes.map serObj)

/-- Global assignments of a node list, in order. -/
def gLefts (ns : List GNode) : List (List Char × Value) :=
  ns.filterMap (fun n => match n with
    | .asgn k v => some (k, v)
    | .blk _ => none)

/-- Block objects of a node list, in order. -/
def gRights (ns : List GNode) : List UDMFObject :=
  ns.filterMap (fun n => match n with
    | .blk o => some o
    | .asgn _ _ => none)

/-- `UDMFMapEditor._parse` on a fresh editor: parse, then partition the
top-level nodes into `_nodes` (appended in order) and `_meta` (dict
updates in encounter order). -/
def parseDoc (s : List Char) : Except PErr Doc :=
  match udmfParse s with
  | .ok ns => .ok { meta := dictFold (gLefts ns), nodes := gRights ns }
  | .error e => .error e

/-! ## The editor: load and save

The record snapshot (`_wad_entries` names plus `_wad_data` bytes, read
eagerly at construction) is a list of `(name, bytes)` pairs.  Bytes are
`List Char` and `decode('ascii')`/`encode('ascii')` are the identity:
the payloads involved are ASCII text. -/

/-- Errors `load` can raise: the `IOError("Unable to find an UDMF map")`
sanity check, or a propagated parse exception. -/
inductive LoadErr where
  | notFound : LoadErr
  | parseFail : PErr → LoadErr
deriving DecidableEq, Repr

/-- The reserved record name `TEXTMAP`. -/
def textmapName : List Char := "TEXTMAP".data

/-- The reserved record name `ENDMAP`. -/
def endmapName : List Char := "ENDMAP".data

/-- Loaded editor state: the snapshot plus `name`, `index`, `data`,
`_meta`, `_nodes` as set by a successful `load`. -/
structure Editor where
  wad : List (List Char × List Char)
  name : List Char
  index : Nat
  data : List Char
  meta : List (List Char × Value)
  nodes : List UDMFObject
deriving DecidableEq, Repr

/-- The outer scan of `UDMFMapEditor.load`: walk the entries by index;
a candidate is an entry whose successor is named `TEXTMAP` (the
`IndexError` on the last entry ends the scan); the first candidate whose
name equals the requested one is selected. -/
def findMapAux (name : List Char) : Nat → List (List Char) → Option Nat
  | i, e1 :: e2 :: rest =>
    if e2 = textmapName ∧ e1 = name then some i
    else findMapAux name (i + 1) (e2 :: rest)
  | _, _ => none

/-- Index of the selected header record, if any. -/
def findMap (w : List (List Char × List Char)) (name : List Char) : Option Nat :=
  findMapAux name 0 (w.map Prod.fst)

/-- The inner scan of `load`: from the header index walk forward until an
`ENDMAP` entry (or the end of the snapshot); each `TEXTMAP` entry on the
way overwrites `self.data` with its bytes. -/
def scanSpan : List (List Char × List Char) → Option (List Char) → Option (List Char)
  | [], acc => acc
  | (nm, bytes) :: rest, acc =>
    if nm = endmapName then acc
    else if nm = textmapName then scanSpan rest (some bytes)
    else scanSpan rest acc

/-- The text record's bytes found by the inner scan from index `i`. -/
def spanText (w : List (List Char × List Char)) (i : Nat) : Option (List Char) :=
  scanSpan (w.drop i) none

/-- `UDMFMapEditor.load(name)` on a freshly constructed editor: select
the first header whose successor is `TEXTMAP`, extract the span's text,
run the sanity check `if not self.name or not self.data` (an empty name
or empty/missing text raises the same `IOError` as finding no map at
all), then parse. -/
def load (w : List (List Char × List Char)) (name : List Char) :
    Except LoadErr Editor :=
  match findMap w name with
  | none => .error .notFound
  | some i =>
    if name = [] then .error .notFound
    else
      match spanText w i with
      | none => .error .notFound
      | some d =>
        if d = [] then .error .notFound
        else
          match udmfParse d with
          | .error e => .error (.parseFail e)
          | .ok ns =>
            .ok { wad := w, name := name, index := i, data := d
                  meta := dictFold (gLefts ns), nodes := gRights ns }

/-- `UDMFMapEditor.serialize()` of a loaded editor. -/
def serEditor (ed : Editor) : List Char :=
  serDoc { meta := ed.meta, nodes := ed.nodes }

/-- The record loop of `save`: entry `index + 1` (the original `TEXTMAP`
position) gets the freshly serialized document, every other record keeps
its snapshot bytes; names are kept as they are. -/
def saveAux (newData : List Char) (tidx : Nat) :
    Nat → List (List Char × List Char) → List (List Char × List Char)
  | _, [] => []
  | i, (nm, bytes) :: rest =>
    (nm, if i = tidx then newData else bytes) :: saveAux newData tidx (i + 1) rest

/-- `UDMFMapEditor.save(filename)`.  Modelled from the spec: the
container collaborator (`WadIO`, not under `src/`) appends one record
per `insert(name, data)` call in call order and `save()` commits them,
so the produced container is the list of inserted `(name, bytes)` pairs
in loop order. -/
def save (ed : Editor) : List (List Char × List Char) :=
  saveAux (serEditor ed) (ed.index + 1) 0 ed.wad

/-! ## Well-formedness predicates

These predicates delimit the documents for which the round-trip theorem
is stated; they are verification-side definitions, not part of the
source. -/

/-- A nonempty lexeme matching the `identifier` pattern. -/
def identOK : List Char → Bool
  | [] => false
  | c :: rest => isIdentStart c && rest.all isIdentChar

/-- A string body the `quoted_string` pattern accepts verbatim between
quotes: ordinary characters (no `"`, no `\`) and escape pairs `\c` with
`c` not a newline. -/
def qbOK : List Char → Bool
  | [] => true
  | c :: rest =>
    if c = '\\' then
      match rest with
      | [] => false
      | d :: r2 => !(d = '\n') && qbOK r2
    else !(c = '"') && qbOK rest

/-- Scalar values that survive the round trip unchanged: any integer,
the boolean `true` (`false` re-parses as `true`), and strings without
`"` or `\`.  Floats are excluded: their serialization depends on IEEE
formatting (and e.g. `str(1e-10)` does not even match the grammar's
float pattern). -/
def wfValue : Value → Bool
  | .vint _ => true
  | .vbool b => b
  | .vstr s => s.all (fun c => !(c = '"') && !(c = '\\'))
  | .vfloat _ => false

/-- A block attribute that round-trips: identifier key, not literally
`name` (that key overwrites the object's type name on re-parse), and a
round-trippable value. -/
def wfAttr (p : List Char × Value) : Bool :=
  identOK p.1 && !(p.1 == "name".data) && wfValue p.2

/-- A global metadata entry that round-trips (the key `name` is harmless
at global scope). -/
def wfMetaEntry (p : List Char × Value) : Bool :=
  identOK p.1 && wfValue p.2

/-- Keys of an association list are pairwise distinct (Python dict
invariant). -/
def keysUnique : List (List Char × Value) → Bool
  | [] => true
  | (k, _) :: rest => rest.all (fun p => !(p.1 == k)) && keysUnique rest

/-- A block object that round-trips: its name is a string identifier,
its class is the one the registry assigns to that identifier, and its
attributes are unique-keyed and well formed. -/
def wfObj (o : UDMFObject) : Bool :=
  (match o.name with
   | .vstr s => identOK s && (blockTypes s == o.cls)
   | _ => false) &&
    o.attrs.all wfAttr && keysUnique o.attrs

/-- A document that round-trips. -/
def wfDoc (d : Doc) : Bool :=
  d.meta.all wfMetaEntry && keysUnique d.meta && d.nodes.all wfObj

/-- Concatenate serialized items with newline separators in front of a
trailing context: `sepcat xs t = joinNL xs ++ t`. -/
def sepcat : List (List Char) → List Char → List Char
  | [], t => t
  | [x], t => x ++ t
  | x :: xs, t => x ++ '\n' :: sepcat xs t

/-- A record named `name` at index `m` of a name list, immediately
followed by a record named `TEXTMAP`. -/
def pairAtL (l : List (List Char)) (m : Nat) (name : List Char) : Prop :=
  l[m]? = some name ∧ l[m + 1]? = some textmapName

/-- A header record named `name` immediately followed by a `TEXTMAP`
record, at index `i` of the snapshot (the spec's header/text pairing). -/
def pairAt (w : List (List Char × List Char)) (name : List Char) (i : Nat) : Prop :=
  pairAtL (w.map Prod.fst) i name

/-! ## Concrete inputs used by witnesses and counterexamples -/

/-- A document whose single block carries only a boolean attribute with
value `false`. -/
def docFalse : Doc :=
  { meta := [],
    nodes := [{ cls := .thing, name := .vstr "thing".data,
                attrs := [("a".data, Value.vbool false)] }] }

/-- The same document after the round trip: the value flipped to `true`. -/
def docFalseFlipped : Doc :=
  { meta := [],
    nodes := [{ cls := .thing, name := .vstr "thing".data,
                attrs := [("a".data, Value.vbool true)] }] }

/-- A well-formed witness document exercising every round-trippable
scalar kind. -/
def docWit : Doc :=
  { meta := [("namespace".data, Value.vstr "doom".data)],
    nodes := [{ cls := .thing, name := .vstr "thing".data,
                attrs := [("x".data, Value.vint 32),
                          ("type".data, Value.vint 1),
                          ("tag".data, Value.vstr "hi".data),
                          ("flag".data, Value.vbool true)] },
              { cls := .generic, name := .vstr "custom".data,
                attrs := [("foo".data, Value.vint (-7))] }] }

/-- A snapshot holding two maps both named `MAP01`. -/
def wadTwo : List (List Char × List Char) :=
  [("MAP01".data, "junk".data), ("TEXTMAP".data, "a = 1;".data),
   ("ENDMAP".data, []),
   ("MAP01".data, "junk2".data), ("TEXTMAP".data, "a = 2;".data),
   ("ENDMAP".data, [])]

/-- The editor state `load` produces from `wadTwo` for `MAP01`. -/
def edTwo : Editor :=
  { wad := wadTwo, name := "MAP01".data, index := 0, data := "a = 1;".data,
    meta := [("a".data, Value.vint 1)], nodes := [] }

/-- A snapshot with a matching header/`TEXTMAP` pair whose `TEXTMAP`
lump is empty. -/
def wadEmptyText : List (List Char × List Char) :=
  [("MAP01".data, "x".data), ("TEXTMAP".data, [])]

/-! ## Basic lemmas about skipping -/

lemma scanClose_length {s r : List Char} (h : scanClose s = some r) :
    r.length < s.length := by
  induction s with
  | nil => simp [scanClose] at h
  | cons a rest ih =>
    cases rest with
    | nil => simp [scanClose] at h
    | cons b rest2 =>
      rw [scanClose] at h
      split at h
      · cases h; simp; omega
      · split at h
        · cases h
        · have := ih h
          simpa using Nat.lt_succ_of_lt this

lemma matchBlockComment_length {s r : List Char}
    (h : matchBlockComment s = some r) : r.length < s.length := by
  match s with
  | [] => simp [matchBlockComment] at h
  | [a] => simp [matchBlockComment] at h
  | a :: b :: rest =>
    rw [matchBlockComment] at h
    split at h
    · have := scanClose_length h
      simp at this ⊢
      omega
    · cases h

lemma dropWhile_length_le (p : Char → Bool) (l : List Char) :
    (l.dropWhile p).length ≤ l.length := by
  induction l with
  | nil => simp [List.dropWhile]
  | cons c rest ih =>
    rw [List.dropWhile]
    split
    · exact Nat.le_succ_of_le ih
    · exact Nat.le_refl _

lemma matchEolComment_length {s r : List Char}
    (h : matchEolComment s = some r) : r.length < s.length := by
  match s with
  | [] => simp [matchEolComment] at h
  | [a] => simp [matchEolComment] at h
  | a :: b :: rest =>
    rw [matchEolComment] at h
    split at h
    · cases h
      have := dropWhile_length_le (fun c => !(c = '\n')) rest
      simp
      omega
    · cases h

lemma skipF_congr : ∀ (f g : Nat) (s : List Char),
    s.length < f → s.length < g → skipF f s = skipF g s := by
  intro f
  induction f with
  | zero => intro g s h; exact absurd h (Nat.not_lt_zero _)
  | succ f ih =>
    intro g s hf hg
    cases g with
    | zero => exact absurd hg (Nat.not_lt_zero _)
    | succ g =>
      cases s with
      | nil => simp [skipF]
      | cons c rest =>
        simp only [skipF]
        by_cases hw : isWs c
        · simp only [hw, if_true]
          exact ih g rest (by simpa using hf) (by simpa using hg)
        · simp only [hw, if_false]
          cases hbc : matchBlockComment (c :: rest) with
          | some r =>
            have hlen := matchBlockComment_length hbc
            exact ih g r (by omega) (by omega)
          | none =>
            cases hec : matchEolComment (c :: rest) with
            | some r =>
              have hlen := matchEolComment_length hec
              exact ih g r (by omega) (by omega)
            | none => rfl

lemma skip_ws {c : Char} (s : List Char) (h : isWs c = true) :
    skip (c :: s) = skip s := by
  show skipF (s.length + 1 + 1) (c :: s) = skipF (s.length + 1) s
  rw [skipF]
  simp [h]

lemma skip_keep {c : Char} {s : List Char} (h1 : isWs c = false)
    (h2 : matchBlockComment (c :: s) = none)
    (h3 : matchEolComment (c :: s) = none) :
    skip (c :: s) = c :: s := by
  show skipF (s.length + 1 + 1) (c :: s) = c :: s
  rw [skipF]
  simp [h1, h2, h3]

lemma matchBlockComment_none {c : Char} (s : List Char) (h : ¬(c = '\\')) :
    matchBlockComment (c :: s) = none := by
  cases s with
  | nil => rfl
  | cons b rest => simp [matchBlockComment, h]

lemma matchEolComment_none {c : Char} (s : List Char) (h : ¬(c = '/')) :
    matchEolComment (c :: s) = none := by
  cases s with
  | nil => rfl
  | cons b rest => simp [matchEolComment, h]

/-- Skipping keeps any input whose head is not whitespace and cannot open
a comment (not `\` and not `/`). -/
lemma skip_nc {c : Char} (s : List Char) (h1 : isWs c = false)
    (h2 : ¬(c = '\\')) (h3 : ¬(c = '/')) : skip (c :: s) = c :: s :=
  skip_keep h1 (matchBlockComment_none s h2) (matchEolComment_none s h3)

lemma skip_nil : skip [] = [] := rfl

/-! ## takeWhile and dropWhile on decomposed inputs -/

lemma takeWhile_append_of_stop {p : Char → Bool} {a : List Char}
    (ha : ∀ x ∈ a, p x = true) {y : Char} (hy : p y = false) (b : List Char) :
    (a ++ y :: b).takeWhile p = a := by
  induction a with
  | nil => simp [List.takeWhile, hy]
  | cons c rest ih =>
    have hc : p c = true := ha c (by simp)
    simp only [List.cons_append, List.takeWhile, hc]
    simp only [List.append_eq]
    rw [ih (fun x hx => ha x (by simp [hx]))]

lemma dropWhile_append_of_stop {p : Char → Bool} {a : List Char}
    (ha : ∀ x ∈ a, p x = true) {y : Char} (hy : p y = false) (b : List Char) :
    (a ++ y :: b).dropWhile p = y :: b := by
  induction a with
  | nil => simp [List.dropWhile, hy]
  | cons c rest ih =>
    have hc : p c = true := ha c (by simp)
    simp only [List.cons_append, List.dropWhile, hc]
    simp only [List.append_eq]
    exact ih (fun x hx => ha x (by simp [hx]))

/-! ## Character-class facts -/

/-- Two characters on opposite sides of any boolean class are distinct. -/
lemma charClass_ne {p : Char → Bool} {c d : Char} (h : p c = true)
    (hd : p d = false) : ¬(c = d) := by
  intro heq
  rw [heq, hd] at h
  simp at h

lemma not_ws_of_identStart {c : Char} (h : isIdentStart c = true) :
    isWs c = false := by
  have h1 := charClass_ne h (show isIdentStart ' ' = false by decide)
  have h2 := charClass_ne h (show isIdentStart '\t' = false by decide)
  have h3 := charClass_ne h (show isIdentStart '\n' = false by decide)
  have h4 := charClass_ne h (show isIdentStart '\r' = false by decide)
  have h5 := charClass_ne h (show isIdentStart '\x0b' = false by decide)
  have h6 := charClass_ne h (show isIdentStart '\x0c' = false by decide)
  simp [isWs, h1, h2, h3, h4, h5, h6]

lemma not_ws_of_digit {c : Char} (h : isDigitC c = true) :
    isWs c = false := by
  have h1 := charClass_ne h (show isDigitC ' ' = false by decide)
  have h2 := charClass_ne h (show isDigitC '\t' = false by decide)
  have h3 := charClass_ne h (show isDigitC '\n' = false by decide)
  have h4 := charClass_ne h (show isDigitC '\r' = false by decide)
  have h5 := charClass_ne h (show isDigitC '\x0b' = false by decide)
  have h6 := charClass_ne h (show isDigitC '\x0c' = false by decide)
  simp [isWs, h1, h2, h3, h4, h5, h6]

/-- Skipping keeps an input whose head starts an identifier. -/
lemma skip_identStart {c : Char} (s : List Char) (h : isIdentStart c = true) :
    skip (c :: s) = c :: s :=
  skip_nc s (not_ws_of_identStart h)
    (charClass_ne h (by decide)) (charClass_ne h (by decide))

/-- Skipping keeps an input whose head is a digit. -/
lemma skip_digit {c : Char} (s : List Char) (h : isDigitC c = true) :
    skip (c :: s) = c :: s :=
  skip_nc s (not_ws_of_digit h)
    (charClass_ne h (by decide)) (charClass_ne h (by decide))

/-! ## Decimal representation -/

lemma digitChar_digit {n : Nat} (h : n < 10) :
    isDigitC (digitChar n) = true := by
  interval_cases n <;> decide

lemma digitChar_nz {n : Nat} (h1 : 1 ≤ n) (h2 : n < 10) :
    isNzDigit (digitChar n) = true := by
  interval_cases n <;> decide

lemma digitChar_val {n : Nat} (h : n < 10) :
    (digitChar n).toNat - '0'.toNat = n := by
  interval_cases n <;> decide

lemma natReprF_congr : ∀ (f g n : Nat), n < f → n < g →
    natReprF f n = natReprF g n := by
  intro f
  induction f with
  | zero => intro g n h; exact absurd h (Nat.not_lt_zero _)
  | succ f ih =>
    intro g n hf hg
    cases g with
    | zero => exact absurd hg (Nat.not_lt_zero _)
    | succ g =>
      by_cases h10 : n < 10
      · simp [natReprF, h10]
      · have hdiv : n / 10 < n := Nat.div_lt_self (by omega) (by omega)
        simp only [natReprF, h10, if_false]
        rw [ih g (n / 10) (by omega) (by omega)]

lemma natRepr_lt10 {n : Nat} (h : n < 10) : natRepr n = [digitChar n] := by
  simp [natRepr, natReprF, h]

lemma natRepr_ge10 {n : Nat} (h : ¬(n < 10)) :
    natRepr n = natRepr (n / 10) ++ [digitChar (n % 10)] := by
  have hdiv : n / 10 < n := Nat.div_lt_self (by omega) (by omega)
  show natReprF (n + 1) n = natReprF (n / 10 + 1) (n / 10) ++ _
  rw [natReprF]
  simp only [h, if_false]
  rw [natReprF_congr n (n / 10 + 1) (n / 10) (by omega) (by omega)]

lemma digitsVal_append (a : List Char) (c : Char) :
    digitsVal (a ++ [c]) = digitsVal a * 10 + (c.toNat - '0'.toNat) := by
  simp [digitsVal, List.foldl_append]

/-- Structure of the decimal representation: nonempty, all digits, value
`n`, and a nonzero leading digit when `n ≠ 0`. -/
lemma natRepr_spec : ∀ n : Nat,
    natRepr n ≠ [] ∧ (∀ c ∈ natRepr n, isDigitC c = true) ∧
      digitsVal (natRepr n) = n ∧
      (n ≠ 0 → ∃ d ds, natRepr n = d :: ds ∧ isNzDigit d = true) := by
  intro n
  induction n using Nat.strong_induction_on with
  | _ n ih =>
    by_cases h10 : n < 10
    · rw [natRepr_lt10 h10]
      refine ⟨by simp, ?_, ?_, ?_⟩
      · intro c hc
        simp at hc
        rw [hc]
        exact digitChar_digit h10
      · simpa [digitsVal] using digitChar_val h10
      · intro hn
        exact ⟨digitChar n, [], rfl, digitChar_nz (by omega) h10⟩
    · rw [natRepr_ge10 h10]
      have hdiv : n / 10 < n := Nat.div_lt_self (by omega) (by omega)
      obtain ⟨hne, hdig, hval, hnz⟩ := ih (n / 10) hdiv
      refine ⟨by simp, ?_, ?_, ?_⟩
      · intro c hc
        rw [List.mem_append] at hc
        cases hc with
        | inl hc => exact hdig c hc
        | inr hc =>
          simp at hc
          rw [hc]
          exact digitChar_digit (Nat.mod_lt _ (by omega))
      · rw [digitsVal_append, hval, digitChar_val (Nat.mod_lt _ (by omega))]
        omega
      · intro _
        obtain ⟨d, ds, hrep, hd⟩ := hnz (by omega)
        exact ⟨d, ds ++ [digitChar (n % 10)], by rw [hrep]; simp, hd⟩

lemma natRepr_ne_nil (n : Nat) : natRepr n ≠ [] := (natRepr_spec n).1

lemma natRepr_digits (n : Nat) : ∀ c ∈ natRepr n, isDigitC c = true :=
  (natRepr_spec n).2.1

lemma natRepr_val (n : Nat) : digitsVal (natRepr n) = n :=
  (natRepr_spec n).2.2.1

lemma natRepr_head_nz {n : Nat} (h : n ≠ 0) :
    ∃ d ds, natRepr n = d :: ds ∧ isNzDigit d = true :=
  (natRepr_spec n).2.2.2 h

lemma digit_of_nz {c : Char} (h : isNzDigit c = true) : isDigitC c = true := by
  simp only [isNzDigit, Bool.and_eq_true, decide_eq_true_eq] at h
  simp only [isDigitC, Bool.and_eq_true, decide_eq_true_eq]
  exact ⟨le_trans (by decide) h.1, h.2⟩

/-! ## Literal-token lemmas -/

lemma litTok_single {t : Char} (h : isNameChar t = false) (r : List Char) :
    litTok [t] (t :: r) = some r := by
  simp [litTok, h]

lemma litTok_zero (r : List Char) : litTok ['0'] ('0' :: r) = some r := by
  simp only [litTok, show isLetter '0' = false by decide, Bool.and_false, Bool.false_and,
    if_false]
  simp

lemma litTok_head_none {t c : Char} (ts s : List Char) (h : ¬(c = t)) :
    litTok (t :: ts) (c :: s) = none := by
  have htake : (c :: s).take (t :: ts).length = c :: s.take ts.length := by
    simp [List.take_succ_cons]
  simp [litTok, htake, h]

lemma litTok_word {tok : List Char} (x : Char) (r : List Char)
    (hx : isNameChar x = false) :
    litTok tok (tok ++ x :: r) = some (x :: r) := by
  have htake := List.take_left tok (x :: r)
  have hdrop := List.drop_left tok (x :: r)
  simp [litTok, htake, hdrop, hx]

/-! ## Identifier lemmas -/

lemma matchIdent_run {k : List Char} (hk : identOK k = true) {x : Char}
    (hx : isIdentChar x = false) (r : List Char) :
    matchIdent (k ++ x :: r) = some (k, x :: r) := by
  cases k with
  | nil => simp [identOK] at hk
  | cons c rest =>
    rw [identOK] at hk
    simp only [Bool.and_eq_true, List.all_eq_true] at hk
    obtain ⟨hstart, hall⟩ := hk
    simp only [List.cons_append, matchIdent, hstart, if_true]
    rw [takeWhile_append_of_stop hall hx, dropWhile_append_of_stop hall hx]

lemma matchIdent_none {c : Char} (h : isIdentStart c = false) (s : List Char) :
    matchIdent (c :: s) = none := by
  simp [matchIdent, h]

lemma identOK_head {k : List Char} (hk : identOK k = true) :
    ∃ c rest, k = c :: rest ∧ isIdentStart c = true := by
  cases k with
  | nil => simp [identOK] at hk
  | cons c rest =>
    rw [identOK] at hk
    simp only [Bool.and_eq_true] at hk
    exact ⟨c, rest, rfl, hk.1⟩

/-! ## Sign helper lemmas -/

lemma takeSign_minus (y : List Char) : takeSign ('-' :: y) = (['-'], y) := by
  simp [takeSign]

lemma takeSign_nosign {c : Char} (h2 : ¬(c = '+')) (h3 : ¬(c = '-'))
    (y : List Char) : takeSign (c :: y) = ([], c :: y) := by
  simp [takeSign, h2, h3]

/-! ## Float-pattern lemmas -/

lemma matchFloat_none_head {c : Char} (h1 : isDigitC c = false)
    (h2 : ¬(c = '+')) (h3 : ¬(c = '-')) (s : List Char) :
    matchFloat (c :: s) = none := by
  simp [matchFloat, takeSign, h1, h2, h3, List.takeWhile]

lemma matchFloat_none_run {a : List Char} (hne : a ≠ [])
    (ha : ∀ c ∈ a, isDigitC c = true) {x : Char} (hx : isDigitC x = false)
    (hdot : ¬(x = '.')) (r : List Char) :
    matchFloat (a ++ x :: r) = none := by
  obtain ⟨d, ds, rfl⟩ := List.exists_cons_of_ne_nil hne
  have hd : isDigitC d = true := ha d (by simp)
  have hdp : ¬(d = '+') := charClass_ne hd (by decide)
  have hdm : ¬(d = '-') := charClass_ne hd (by decide)
  have hall : ∀ y ∈ ds, isDigitC y = true := fun y hy => ha y (by simp [hy])
  simp only [List.cons_append, matchFloat, takeSign, hdp, hdm, or_self, if_false,
    List.takeWhile, List.dropWhile, hd, if_true]
  rw [takeWhile_append_of_stop hall hx, dropWhile_append_of_stop hall hx]
  simp only [List.isEmpty_cons, Bool.false_eq_true, if_false]
  split
  · rename_i heq
    cases heq
    exact absurd rfl hdot
  · rfl

lemma matchFloat_none_negrun {a : List Char} (hne : a ≠ [])
    (ha : ∀ c ∈ a, isDigitC c = true) {x : Char} (hx : isDigitC x = false)
    (hdot : ¬(x = '.')) (r : List Char) :
    matchFloat ('-' :: (a ++ x :: r)) = none := by
  obtain ⟨d, ds, rfl⟩ := List.exists_cons_of_ne_nil hne
  have hd : isDigitC d = true := ha d (by simp)
  have hall : ∀ y ∈ ds, isDigitC y = true := fun y hy => ha y (by simp [hy])
  simp only [List.cons_append, matchFloat]
  rw [takeSign_minus]
  simp only [List.takeWhile, List.dropWhile, hd, if_true]
  rw [takeWhile_append_of_stop hall hx, dropWhile_append_of_stop hall hx]
  simp only [List.isEmpty_cons, Bool.false_eq_true, if_false]
  split
  · rename_i heq
    cases heq
    exact absurd rfl hdot
  · rfl

/-! ## Integer-token lemmas -/

lemma matchInt_zero (r : List Char) : matchInt ('0' :: r) = some (['0'], r) := by
  simp [matchInt, litTok_zero]

lemma matchIntPat2_run {d : Char} {ds : List Char} (hd : isNzDigit d = true)
    (hds : ∀ c ∈ ds, isDigitC c = true) {x : Char} (hx : isDigitC x = false)
    (r : List Char) :
    matchIntPat2 ((d :: ds) ++ x :: r) = some (d :: ds, x :: r) := by
  have hdig := digit_of_nz hd
  have hdp : ¬(d = '+') := charClass_ne hdig (by decide)
  have hdm : ¬(d = '-') := charClass_ne hdig (by decide)
  simp only [List.cons_append, matchIntPat2, takeSign, hdp, hdm, or_self, if_false, hd, if_true]
  rw [takeWhile_append_of_stop hds hx, dropWhile_append_of_stop hds hx]
  simp

lemma matchInt_pos {n : Nat} (hn : n ≠ 0) {x : Char} (hx : isDigitC x = false)
    (r : List Char) :
    matchInt (natRepr n ++ x :: r) = some (natRepr n, x :: r) := by
  obtain ⟨d, ds, hrep, hd⟩ := natRepr_head_nz hn
  have hds : ∀ c ∈ ds, isDigitC c = true := fun c hc =>
    natRepr_digits n c (by rw [hrep]; simp [hc])
  have hne0 : ¬(d = '0') := charClass_ne hd (by decide)
  rw [hrep]
  rw [matchInt]
  rw [show ((d :: ds) ++ x :: r) = d :: (ds ++ x :: r) by simp]
  rw [litTok_head_none _ _ hne0]
  rw [show (d :: (ds ++ x :: r)) = ((d :: ds) ++ x :: r) by simp]
  rw [matchIntPat2_run hd hds hx]

lemma matchInt_neg {n : Nat} (hn : n ≠ 0) {x : Char} (hx : isDigitC x = false)
    (r : List Char) :
    matchInt (('-' :: natRepr n) ++ x :: r) = some ('-' :: natRepr n, x :: r) := by
  obtain ⟨d, ds, hrep, hd⟩ := natRepr_head_nz hn
  have hds : ∀ c ∈ ds, isDigitC c = true := fun c hc =>
    natRepr_digits n c (by rw [hrep]; simp [hc])
  rw [hrep]
  rw [matchInt]
  rw [show (('-' :: d :: ds) ++ x :: r) = '-' :: (d :: ds ++ x :: r) by simp]
  rw [litTok_head_none _ _ (by decide)]
  show (match matchIntPat2 ('-' :: (d :: ds ++ x :: r)) with
        | some p => some p
        | none => match matchIntPat3 ('-' :: (d :: ds ++ x :: r)) with
          | some p => some p
          | none => matchIntPat4 ('-' :: (d :: ds ++ x :: r))) = _
  have hp2 : matchIntPat2 ('-' :: (d :: ds ++ x :: r)) = some ('-' :: d :: ds, x :: r) := by
    simp only [matchIntPat2]
    rw [takeSign_minus]
    simp only [List.cons_append, hd, if_true]
    rw [takeWhile_append_of_stop hds hx, dropWhile_append_of_stop hds hx]
    simp
  rw [hp2]

lemma matchInt_none_head {c : Char} (h1 : isDigitC c = false)
    (h2 : ¬(c = '+')) (h3 : ¬(c = '-')) (s : List Char) :
    matchInt (c :: s) = none := by
  have h0 : ¬(c = '0') := by
    intro heq
    rw [heq] at h1
    exact absurd h1 (by decide)
  have hnz : isNzDigit c = false := by
    cases hc : isNzDigit c
    · rfl
    · rw [digit_of_nz hc] at h1; cases h1
  rw [matchInt, litTok_head_none _ _ h0]
  have hp2 : matchIntPat2 (c :: s) = none := by
    simp [matchIntPat2, takeSign, h2, h3, hnz]
  have hp3 : matchIntPat3 (c :: s) = none := by
    simp [matchIntPat3, h0]
  have hp4 : matchIntPat4 (c :: s) = none := by
    cases s with
    | nil => rfl
    | cons b rest => simp [matchIntPat4, h0]
  rw [hp2, hp3, hp4]

/-! ## Python `int()` on the representations the serializer emits -/

lemma pyInt_of_digits {a : List Char} (hne : a ≠ [])
    (ha : ∀ c ∈ a, isDigitC c = true) :
    pyInt a = .ok (digitsVal a : Int) := by
  obtain ⟨d, ds, rfl⟩ := List.exists_cons_of_ne_nil hne
  have hd : isDigitC d = true := ha d (by simp)
  have hdp : ¬(d = '+') := charClass_ne hd (by decide)
  have hdm : ¬(d = '-') := charClass_ne hd (by decide)
  have hall : (d :: ds).all isDigitC = true := List.all_eq_true.mpr ha
  simp [pyInt, hdp, hdm, hall]

lemma pyInt_neg_digits {a : List Char} (hne : a ≠ [])
    (ha : ∀ c ∈ a, isDigitC c = true) :
    pyInt ('-' :: a) = .ok (-(digitsVal a : Int)) := by
  have hall : a.all isDigitC = true := List.all_eq_true.mpr ha
  simp [pyInt, hne, hall]

lemma intRepr_nonneg {n : Int} (h : 0 ≤ n) : intRepr n = natRepr n.natAbs := by
  simp [intRepr, not_lt.mpr h]

lemma intRepr_neg {n : Int} (h : n < 0) : intRepr n = '-' :: natRepr n.natAbs := by
  simp [intRepr, h]

lemma pyInt_intRepr (n : Int) : pyInt (intRepr n) = .ok n := by
  by_cases h : 0 ≤ n
  · rw [intRepr_nonneg h, pyInt_of_digits (natRepr_ne_nil _) (natRepr_digits _)]
    rw [natRepr_val]
    congr 1
    omega
  · rw [intRepr_neg (by omega), pyInt_neg_digits (natRepr_ne_nil _) (natRepr_digits _)]
    rw [natRepr_val]
    congr 1
    omega

lemma matchInt_intRepr (n : Int) {x : Char} (hx : isDigitC x = false)
    (r : List Char) :
    matchInt (intRepr n ++ x :: r) = some (intRepr n, x :: r) := by
  by_cases h : 0 ≤ n
  · rw [intRepr_nonneg h]
    by_cases h0 : n.natAbs = 0
    · rw [h0, natRepr_lt10 (by omega)]
      exact matchInt_zero _
    · exact matchInt_pos h0 hx r
  · rw [intRepr_neg (by omega), List.cons_append]
    have := @matchInt_neg n.natAbs (by omega) x hx r
    rw [List.cons_append] at this
    exact this

lemma matchFloat_intRepr (n : Int) {x : Char} (hx : isDigitC x = false)
    (hdot : ¬(x = '.')) (r : List Char) :
    matchFloat (intRepr n ++ x :: r) = none := by
  by_cases h : 0 ≤ n
  · rw [intRepr_nonneg h]
    exact matchFloat_none_run (natRepr_ne_nil _) (natRepr_digits _) hx hdot r
  · rw [intRepr_neg (by omega), List.cons_append]
    exact matchFloat_none_negrun (natRepr_ne_nil _) (natRepr_digits _) hx hdot r

/-! ## Quoted-string lemmas -/

lemma qbOK_cons (c : Char) (rest : List Char) :
    qbOK (c :: rest) =
      if c = '\\' then
        (match rest with
         | [] => false
         | d :: r2 => !(d = '\n') && qbOK r2)
      else !(c = '"') && qbOK rest := by
  rw [qbOK.eq_def]

lemma quotedBody_cons (c : Char) (rest : List Char) :
    quotedBody (c :: rest) =
      if c = '"' then some ([], rest)
      else if c = '\\' then
        (match rest with
         | [] => none
         | d :: r2 =>
           if d = '\n' then none
           else
             match quotedBody r2 with
             | some (b, r3) => some (c :: d :: b, r3)
             | none => none)
      else
        match quotedBody rest with
        | some (b, r3) => some (c :: b, r3)
        | none => none := by
  rw [quotedBody.eq_def]

lemma quotedBody_run : ∀ (n : Nat) (b : List Char), b.length ≤ n →
    qbOK b = true → ∀ r, quotedBody (b ++ '"' :: r) = some (b, r) := by
  intro n
  induction n with
  | zero =>
    intro b hlen _ r
    have : b = [] := List.eq_nil_of_length_eq_zero (by omega)
    subst this
    rw [List.nil_append, quotedBody_cons]
    simp
  | succ n ih =>
    intro b hlen hb r
    cases b with
    | nil =>
      rw [List.nil_append, quotedBody_cons]
      simp
    | cons c rest =>
      by_cases hc : c = '\\'
      · subst hc
        cases rest with
        | nil => simp [qbOK_cons] at hb
        | cons d r2 =>
          rw [qbOK_cons] at hb
          simp at hb
          obtain ⟨hd, hok⟩ := hb
          have hrec := ih r2 (by simp at hlen; omega) hok r
          simp only [List.cons_append, quotedBody_cons]
          simp [hd, hrec]
      · rw [qbOK_cons] at hb
        simp only [hc, if_false] at hb
        simp at hb
        obtain ⟨hq, hok⟩ := hb
        have hrec := ih rest (by simp at hlen; omega) hok r
        simp only [List.cons_append, quotedBody_cons]
        simp [hq, hc, hrec]

lemma matchQuoted_run {b : List Char} (hb : qbOK b = true) (r : List Char) :
    matchQuoted ('"' :: (b ++ '"' :: r)) = some ('"' :: b ++ ['"'], r) := by
  simp only [matchQuoted]
  rw [quotedBody_run b.length b le_rfl hb r]
  simp

lemma matchQuoted_none_head {c : Char} (h : ¬(c = '"')) (s : List Char) :
    matchQuoted (c :: s) = none := by
  simp [matchQuoted, h]

lemma pySlice_quotes (b : List Char) : pySlice1m1 ('"' :: b ++ ['"']) = b := by
  simp [pySlice1m1, List.dropLast_concat]

lemma qbOK_of_clean {s : List Char}
    (h : ∀ c ∈ s, (!(c = '"') && !(c = '\\')) = true) : qbOK s = true := by
  induction s with
  | nil => rfl
  | cons c rest ih =>
    have hc := h c (by simp)
    simp only [Bool.and_eq_true, Bool.not_eq_true'] at hc
    rw [qbOK_cons]
    simp [hc.1, hc.2, ih (fun x hx => h x (by simp [hx]))]

/-! ## Boolean-token lemmas -/

lemma matchBool_true {x : Char} (hx : isNameChar x = false) (r : List Char) :
    matchBool (('t' :: 'r' :: 'u' :: 'e' :: []) ++ x :: r) =
      some ('t' :: 'r' :: 'u' :: 'e' :: [], x :: r) := by
  rw [matchBool, litTok_word x r hx]

lemma matchBool_none_head {c : Char} (h1 : ¬(c = 't')) (h2 : ¬(c = 'f'))
    (s : List Char) : matchBool (c :: s) = none := by
  rw [matchBool, litTok_head_none _ _ h1, litTok_head_none _ _ h2]

/-! ## Value-rule lemmas -/

lemma skip_fmt {v : Value} (hv : wfValue v = true) (t : List Char) :
    skip (fmtValue v ++ t) = fmtValue v ++ t := by
  cases v with
  | vint n =>
    show skip (intRepr n ++ t) = intRepr n ++ t
    by_cases h : 0 ≤ n
    · rw [intRepr_nonneg h]
      obtain ⟨d, ds, hrep⟩ := List.exists_cons_of_ne_nil (natRepr_ne_nil n.natAbs)
      have hd : isDigitC d = true := natRepr_digits _ d (by rw [hrep]; simp)
      rw [hrep, List.cons_append]
      exact skip_digit _ hd
    · rw [intRepr_neg (by omega), List.cons_append]
      exact skip_nc _ (by decide) (by decide) (by decide)
  | vbool b =>
    have hb : b = true := by simpa [wfValue] using hv
    subst hb
    exact skip_nc _ (by decide) (by decide) (by decide)
  | vstr s =>
    show skip (('"' :: s ++ ['"']) ++ t) = _
    rw [List.cons_append]
    exact skip_nc _ (by decide) (by decide) (by decide)
  | vfloat lit => simp [wfValue] at hv

lemma valueCore_fmt {v : Value} (hv : wfValue v = true) (r : List Char) :
    parseValueCore (fmtValue v ++ ';' :: r) = .ok v (';' :: r) := by
  cases v with
  | vint n =>
    show parseValueCore (intRepr n ++ ';' :: r) = _
    have h1 : matchFloat (intRepr n ++ ';' :: r) = none :=
      matchFloat_intRepr n (by decide) (by decide) r
    have h2 : matchInt (intRepr n ++ ';' :: r) = some (intRepr n, ';' :: r) :=
      matchInt_intRepr n (by decide) r
    simp only [parseValueCore, h1, h2, pyInt_intRepr]
  | vbool b =>
    have hb : b = true := by simpa [wfValue] using hv
    subst hb
    show parseValueCore ('t' :: 'r' :: 'u' :: 'e' :: ';' :: r) = _
    have h1 : matchFloat ('t' :: 'r' :: 'u' :: 'e' :: ';' :: r) = none :=
      matchFloat_none_head (by decide) (by decide) (by decide) _
    have h2 : matchInt ('t' :: 'r' :: 'u' :: 'e' :: ';' :: r) = none :=
      matchInt_none_head (by decide) (by decide) (by decide) _
    have h3 : matchQuoted ('t' :: 'r' :: 'u' :: 'e' :: ';' :: r) = none :=
      matchQuoted_none_head (by decide) _
    have h4 : matchBool ('t' :: 'r' :: 'u' :: 'e' :: ';' :: r) =
        some ('t' :: 'r' :: 'u' :: 'e' :: [], ';' :: r) :=
      matchBool_true (by decide) r
    simp only [parseValueCore, h1, h2, h3, h4]
    rfl
  | vstr s =>
    have hs : ∀ c ∈ s, (!(c = '"') && !(c = '\\')) = true := by
      simpa [wfValue, List.all_eq_true] using hv
    show parseValueCore (('"' :: s ++ ['"']) ++ ';' :: r) = _
    have hshape : (('"' :: s ++ ['"']) ++ ';' :: r) = '"' :: (s ++ '"' :: (';' :: r)) := by
      simp
    rw [hshape]
    have h1 : matchFloat ('"' :: (s ++ '"' :: (';' :: r))) = none :=
      matchFloat_none_head (by decide) (by decide) (by decide) _
    have h2 : matchInt ('"' :: (s ++ '"' :: (';' :: r))) = none :=
      matchInt_none_head (by decide) (by decide) (by decide) _
    have h3 := matchQuoted_run (qbOK_of_clean hs) (';' :: r)
    simp only [parseValueCore, h1, h2, h3, pySlice_quotes]
  | vfloat lit => simp [wfValue] at hv

/-! ## Assignment-rule lemmas -/

lemma serAssign_shape (k : List Char) (v : Value) (r : List Char) :
    serAssign k v ++ r = k ++ ' ' :: '=' :: ' ' :: (fmtValue v ++ ';' :: r) := by
  simp [serAssign]

lemma skip_eqsign (y : List Char) :
    skip (' ' :: '=' :: y) = '=' :: y := by
  rw [skip_ws _ (by decide)]
  exact skip_nc _ (by decide) (by decide) (by decide)

lemma assignCore_run {k : List Char} (hk : identOK k = true) {v : Value}
    (hv : wfValue v = true) (r : List Char) :
    parseAssignCore (k ++ ' ' :: '=' :: ' ' :: (fmtValue v ++ ';' :: r)) =
      .ok (k, v) r := by
  have hident : matchIdent (k ++ ' ' :: '=' :: ' ' :: (fmtValue v ++ ';' :: r)) =
      some (k, ' ' :: '=' :: ' ' :: (fmtValue v ++ ';' :: r)) :=
    matchIdent_run hk (by decide) _
  have heq : litTok ['='] (skip (' ' :: '=' :: ' ' :: (fmtValue v ++ ';' :: r))) =
      some (' ' :: (fmtValue v ++ ';' :: r)) := by
    rw [skip_eqsign]
    exact litTok_single (by decide) _
  have hval : parseValue (' ' :: (fmtValue v ++ ';' :: r)) = .ok v (';' :: r) := by
    rw [parseValue, skip_ws _ (by decide), skip_fmt hv]
    exact valueCore_fmt hv r
  have hsemi : litTok [';'] (skip (';' :: r)) = some r := by
    rw [skip_nc _ (by decide) (by decide) (by decide)]
    exact litTok_single (by decide) r
  simp only [parseAssignCore, hident, heq, hval, hsemi]

/-- The serialized assignment starts with an identifier character, so the
initial skip is the identity on it. -/
lemma skip_serAssign {k : List Char} (hk : identOK k = true) (v : Value)
    (t : List Char) : skip (serAssign k v ++ t) = serAssign k v ++ t := by
  obtain ⟨c, krest, hkrep, hstart⟩ := identOK_head hk
  rw [serAssign_shape, hkrep, List.cons_append]
  exact skip_identStart _ hstart

lemma assignRun {k : List Char} (hk : identOK k = true) {v : Value}
    (hv : wfValue v = true) (r : List Char) :
    parseAssignment (serAssign k v ++ r) = .ok (k, v) r := by
  rw [parseAssignment, skip_serAssign hk, serAssign_shape]
  exact assignCore_run hk hv r

lemma blockFail_serAssign {k : List Char} (hk : identOK k = true) {v : Value}
    (r : List Char) : parseBlock (serAssign k v ++ r) = .fail := by
  rw [parseBlock, skip_serAssign hk, serAssign_shape]
  have hident : matchIdent (k ++ ' ' :: '=' :: ' ' :: (fmtValue v ++ ';' :: r)) =
      some (k, ' ' :: '=' :: ' ' :: (fmtValue v ++ ';' :: r)) :=
    matchIdent_run hk (by decide) _
  have hbrace : litTok ['{'] (skip (' ' :: '=' :: ' ' :: (fmtValue v ++ ';' :: r))) =
      none := by
    rw [skip_eqsign]
    exact litTok_head_none _ _ (by decide)
  simp only [parseBlockCore, hident, hbrace]

lemma globalAssign {k : List Char} (hk : identOK k = true) {v : Value}
    (hv : wfValue v = true) (r : List Char) :
    parseGlobalExpr (serAssign k v ++ r) = .ok (.asgn k v) r := by
  simp only [parseGlobalExpr, blockFail_serAssign hk r, assignRun hk hv r]

/-! ## Closure lemmas for `expr_list` -/

lemma sepcat_eq_joinNL : ∀ (xs : List (List Char)) (t : List Char),
    sepcat xs t = joinNL xs ++ t := by
  intro xs
  induction xs with
  | nil => intro t; rfl
  | cons x xs ih =>
    intro t
    cases xs with
    | nil => rfl
    | cons y ys =>
      show x ++ '\n' :: sepcat (y :: ys) t = (x ++ '\n' :: joinNL (y :: ys)) ++ t
      rw [ih t]
      simp

lemma parseAssignment_ws {c : Char} (hc : isWs c = true) (s : List Char) :
    parseAssignment (c :: s) = parseAssignment s := by
  rw [parseAssignment, parseAssignment, skip_ws _ hc]

/-- At `'\n' :: '}' :: u` the assignment attempt fails. -/
lemma assign_fail_brace (u : List Char) :
    parseAssignment ('\n' :: '}' :: u) = .fail := by
  rw [parseAssignment, skip_ws _ (by decide),
    skip_nc _ (by decide) (by decide) (by decide)]
  have hm : matchIdent ('}' :: u) = none := matchIdent_none (by decide) u
  simp only [parseAssignCore, hm]

/-- At `'\n' :: '}' :: u` the closure stops without consuming anything. -/
lemma exprList_stop (f : Nat) (u : List Char) :
    parseExprList (f + 1) ('\n' :: '}' :: u) = .ok [] ('\n' :: '}' :: u) := by
  simp only [parseExprList, assign_fail_brace]

lemma exprList_ws {c : Char} (hc : isWs c = true) (f : Nat) {s : List Char}
    {l : List (List Char × Value)} {r : List Char}
    (h : parseExprList f s = .ok l r) (hl : l ≠ []) :
    parseExprList f (c :: s) = .ok l r := by
  cases f with
  | zero => simp [parseExprList] at h
  | succ f =>
    rw [parseExprList] at h ⊢
    rw [parseAssignment_ws hc]
    cases hpa : parseAssignment s with
    | ok a r1 =>
      rw [hpa] at h
      exact h
    | fail =>
      rw [hpa] at h
      cases h
      exact absurd rfl hl
    | err e =>
      rw [hpa] at h
      cases h

lemma exprListRun : ∀ (attrs : List (List Char × Value)) (f : Nat) (u : List Char),
    (∀ p ∈ attrs, identOK p.1 = true ∧ wfValue p.2 = true) →
    parseExprList (attrs.length + (f + 1))
        (sepcat (attrs.map (fun p => serAssign p.1 p.2)) ('\n' :: '}' :: u)) =
      .ok attrs ('\n' :: '}' :: u) := by
  intro attrs
  induction attrs with
  | nil =>
    intro f u _
    simp only [List.length_nil, Nat.zero_add, List.map_nil, sepcat]
    exact exprList_stop f u
  | cons a as ih =>
    intro f u hwf
    have ha := hwf a (by simp)
    have hwf2 : ∀ p ∈ as, identOK p.1 = true ∧ wfValue p.2 = true :=
      fun p hp => hwf p (by simp [hp])
    cases as with
    | nil =>
      show parseExprList ([a].length + (f + 1))
          (serAssign a.1 a.2 ++ ('\n' :: '}' :: u)) = .ok [a] ('\n' :: '}' :: u)
      rw [show ([a].length + (f + 1)) = (f + 1) + 1 by simp only [List.length_singleton]; omega]
      simp only [parseExprList, assignRun ha.1 ha.2, assign_fail_brace]
    | cons b bs =>
      show parseExprList ((a :: b :: bs).length + (f + 1))
          (serAssign a.1 a.2 ++ '\n' ::
            sepcat ((b :: bs).map (fun p => serAssign p.1 p.2)) ('\n' :: '}' :: u)) =
        .ok (a :: b :: bs) ('\n' :: '}' :: u)
      rw [show ((a :: b :: bs).length + (f + 1)) = ((b :: bs).length + (f + 1)) + 1 by
        simp only [List.length_cons]; omega]
      have hrest : parseExprList ((b :: bs).length + (f + 1))
          ('\n' :: sepcat ((b :: bs).map (fun p => serAssign p.1 p.2)) ('\n' :: '}' :: u)) =
          .ok (b :: bs) ('\n' :: '}' :: u) :=
        exprList_ws (by decide) _ (ih f u hwf2) (by simp)
      rw [parseExprList]
      simp only [assignRun ha.1 ha.2, hrest]

/-! ## Dict lemmas -/

lemma dictUpdate_append {d : List (List Char × Value)} {k : List Char}
    (v : Value) (h : ∀ p ∈ d, ¬(p.1 = k)) :
    dictUpdate d k v = d ++ [(k, v)] := by
  induction d with
  | nil => rfl
  | cons q rest ih =>
    obtain ⟨k0, v0⟩ := q
    have hq : ¬(k0 = k) := h (k0, v0) (by simp)
    rw [dictUpdate]
    simp only [hq, if_false, List.cons_append]
    rw [ih (fun p hp => h p (by simp [hp]))]

lemma keysUnique_parts {k : List Char} {v : Value}
    {rest : List (List Char × Value)}
    (h : keysUnique ((k, v) :: rest) = true) :
    (∀ p ∈ rest, ¬(p.1 = k)) ∧ keysUnique rest = true := by
  rw [keysUnique] at h
  simp only [Bool.and_eq_true, List.all_eq_true] at h
  refine ⟨fun p hp => ?_, h.2⟩
  have := h.1 p hp
  simpa using this

lemma foldl_dictUpdate : ∀ (l acc : List (List Char × Value)),
    (∀ p ∈ l, ∀ q ∈ acc, ¬(q.1 = p.1)) → keysUnique l = true →
    l.foldl (fun d p => dictUpdate d p.1 p.2) acc = acc ++ l := by
  intro l
  induction l with
  | nil => intro acc _ _; simp
  | cons q rest ih =>
    intro acc hdisj hku
    obtain ⟨k, v⟩ := q
    obtain ⟨hk, hrest⟩ := keysUnique_parts hku
    rw [List.foldl_cons]
    have hstep : dictUpdate acc k v = acc ++ [(k, v)] :=
      dictUpdate_append v (fun p hp => by
        have := hdisj (k, v) (by simp) p hp
        simpa using this)
    rw [hstep]
    rw [ih (acc ++ [(k, v)]) ?_ hrest]
    · simp
    · intro p hp q hq
      rw [List.mem_append] at hq
      cases hq with
      | inl hq => exact hdisj p (by simp [hp]) q hq
      | inr hq =>
        simp at hq
        rw [hq]
        simp only []
        exact fun heq => hk p hp heq.symm

lemma dictFold_id {l : List (List Char × Value)} (h : keysUnique l = true) :
    dictFold l = l := by
  rw [dictFold, foldl_dictUpdate l [] (by simp) h]
  simp

lemma assocLookup_none {d : List (List Char × Value)} {k : List Char}
    (h : ∀ p ∈ d, ¬(p.1 = k)) : assocLookup d k = none := by
  induction d with
  | nil => rfl
  | cons q rest ih =>
    obtain ⟨k0, v0⟩ := q
    have hq : ¬(k0 = k) := h (k0, v0) (by simp)
    rw [assocLookup]
    simp only [hq, if_false]
    exact ih (fun p hp => h p (by simp [hp]))

/-! ## Block-rule lemmas -/

lemma wfObj_parts {o : UDMFObject} (ho : wfObj o = true) :
    ∃ s, o.name = .vstr s ∧ identOK s = true ∧ blockTypes s = o.cls ∧
      (∀ p ∈ o.attrs, wfAttr p = true) ∧ keysUnique o.attrs = true := by
  rw [wfObj] at ho
  simp only [Bool.and_eq_true, List.all_eq_true] at ho
  obtain ⟨⟨hname, hattrs⟩, hku⟩ := ho
  cases hn : o.name with
  | vstr s =>
    rw [hn] at hname
    simp only [Bool.and_eq_true, beq_iff_eq] at hname
    exact ⟨s, rfl, hname.1, hname.2, hattrs, hku⟩
  | vint n => rw [hn] at hname; cases hname
  | vbool b => rw [hn] at hname; cases hname
  | vfloat l => rw [hn] at hname; cases hname

lemma wfAttr_parts {p : List Char × Value} (h : wfAttr p = true) :
    identOK p.1 = true ∧ ¬(p.1 = "name".data) ∧ wfValue p.2 = true := by
  rw [wfAttr] at h
  simp only [Bool.and_eq_true, Bool.not_eq_true', beq_eq_false_iff_ne, ne_eq] at h
  exact ⟨h.1.1, h.1.2, h.2⟩

lemma blockSemantics_id {o : UDMFObject} (ho : wfObj o = true) {s : List Char}
    (hname : o.name = .vstr s) : blockSemantics s o.attrs = o := by
  obtain ⟨s2, hname2, _, hcls, hattrs, hku⟩ := wfObj_parts ho
  have hs : s2 = s := by
    rw [hname] at hname2
    cases hname2
    rfl
  subst hs
  have hlook : assocLookup (dictFold o.attrs) ("name".data) = none := by
    rw [dictFold_id hku]
    exact assocLookup_none (fun p hp => (wfAttr_parts (hattrs p hp)).2.1)
  rw [blockSemantics, mkUDMFObject, hlook, dictFold_id hku, hcls]
  cases o
  simp only at hname
  rw [hname]

lemma serAssign_ne_nil (k : List Char) (v : Value) : serAssign k v ≠ [] := by
  cases k <;> simp [serAssign]

lemma joinNL_length_ge : ∀ (xs : List (List Char)),
    (∀ x ∈ xs, x ≠ []) → xs.length ≤ (joinNL xs).length := by
  intro xs
  induction xs with
  | nil => intro _; simp [joinNL]
  | cons x ys ih =>
    intro h
    cases ys with
    | nil =>
      have hx : x ≠ [] := h x (by simp)
      show 1 ≤ x.length
      cases x with
      | nil => exact absurd rfl hx
      | cons c cs => simp
    | cons y yss =>
      have hx : x ≠ [] := h x (by simp)
      have hrest := ih (fun z hz => h z (by simp [hz]))
      show (y :: yss).length + 1 ≤ (x ++ '\n' :: joinNL (y :: yss)).length
      have hx1 : 1 ≤ x.length := by
        cases x with
        | nil => exact absurd rfl hx
        | cons c cs => simp
      simp only [List.length_cons] at hrest
      simp only [List.length_append, List.length_cons]
      omega

lemma serObj_shape {o : UDMFObject} {s : List Char} (hname : o.name = .vstr s)
    (r : List Char) :
    serObj o ++ r = s ++ '\n' :: '{' :: '\n' ::
      (joinNL (o.attrs.map (fun p => serAssign p.1 p.2)) ++
        '\n' :: '}' :: '\n' :: r) := by
  simp [serObj, hname, pyStrValue]

lemma blockCore_run {o : UDMFObject} (ho : wfObj o = true) (r : List Char) :
    parseBlock (serObj o ++ r) = .ok o ('\n' :: r) := by
  obtain ⟨cls, nm, attrs⟩ := o
  obtain ⟨s, hname, hid, hcls, hattrs, hku⟩ := wfObj_parts ho
  have hsem : blockSemantics s attrs = UDMFObject.mk cls nm attrs :=
    blockSemantics_id ho hname
  obtain ⟨c, srest, hsrep, hstart⟩ := identOK_head hid
  have hshape := serObj_shape hname r
  rw [parseBlock, hshape]
  rw [hsrep, List.cons_append, skip_identStart _ hstart, ← List.cons_append, ← hsrep]
  have hident : matchIdent (s ++ '\n' :: '{' :: '\n' ::
      (joinNL (attrs.map (fun p => serAssign p.1 p.2)) ++ '\n' :: '}' :: '\n' :: r)) =
      some (s, '\n' :: '{' :: '\n' ::
        (joinNL (attrs.map (fun p => serAssign p.1 p.2)) ++ '\n' :: '}' :: '\n' :: r)) :=
    matchIdent_run hid (by decide) _
  have hbrace : litTok ['{'] (skip ('\n' :: '{' :: '\n' ::
      (joinNL (attrs.map (fun p => serAssign p.1 p.2)) ++ '\n' :: '}' :: '\n' :: r))) =
      some ('\n' :: (joinNL (attrs.map (fun p => serAssign p.1 p.2)) ++
        '\n' :: '}' :: '\n' :: r)) := by
    rw [skip_ws _ (by decide), skip_nc _ (by decide) (by decide) (by decide)]
    exact litTok_single (by decide) _
  obtain ⟨rest2, hexpr, hclose⟩ : ∃ rest2,
      parseExprList
        (('\n' :: (joinNL (attrs.map (fun p => serAssign p.1 p.2)) ++
          '\n' :: '}' :: '\n' :: r)).length + 1)
        ('\n' :: (joinNL (attrs.map (fun p => serAssign p.1 p.2)) ++
          '\n' :: '}' :: '\n' :: r)) = .ok attrs rest2 ∧
      litTok ['}'] (skip rest2) = some ('\n' :: r) := by
    cases attrs with
    | nil =>
      simp only [List.map_nil, joinNL, List.nil_append]
      refine ⟨'\n' :: '\n' :: '}' :: '\n' :: r, ?_, ?_⟩
      · have hfail2 : parseAssignment ('\n' :: '\n' :: '}' :: '\n' :: r) = .fail := by
          rw [parseAssignment_ws (by decide)]
          exact assign_fail_brace _
        rw [parseExprList]
        simp only [hfail2]
      · rw [skip_ws _ (by decide), skip_ws _ (by decide),
          skip_nc _ (by decide) (by decide) (by decide)]
        exact litTok_single (by decide) _
    | cons a as =>
      refine ⟨'\n' :: '}' :: ('\n' :: r), ?_, ?_⟩
      · have hpairs : ∀ p ∈ a :: as, identOK p.1 = true ∧ wfValue p.2 = true := by
          intro p hp
          have := wfAttr_parts (hattrs p hp)
          exact ⟨this.1, this.2.2⟩
        have hrwJ : joinNL ((a :: as).map (fun p => serAssign p.1 p.2)) ++
            '\n' :: '}' :: ('\n' :: r) =
            sepcat ((a :: as).map (fun p => serAssign p.1 p.2)) ('\n' :: '}' :: ('\n' :: r)) :=
          (sepcat_eq_joinNL _ _).symm
        have hlenJ : (a :: as).length ≤
            (joinNL ((a :: as).map (fun p => serAssign p.1 p.2))).length := by
          have hj := joinNL_length_ge ((a :: as).map (fun p => serAssign p.1 p.2)) ?_
          · simpa using hj
          · intro x hx
            simp only [List.mem_map] at hx
            obtain ⟨p, _, hpx⟩ := hx
            rw [← hpx]
            exact serAssign_ne_nil p.1 p.2
        rw [show ('\n' :: (joinNL ((a :: as).map (fun p => serAssign p.1 p.2)) ++
            '\n' :: '}' :: '\n' :: r)).length + 1 =
            (a :: as).length +
              ((('\n' :: (joinNL ((a :: as).map (fun p => serAssign p.1 p.2)) ++
                '\n' :: '}' :: '\n' :: r)).length - (a :: as).length) + 1) by
          simp only [List.length_cons] at hlenJ
          simp only [List.length_cons, List.length_append]
          omega]
        rw [hrwJ]
        exact exprList_ws (by decide) _
          (exprListRun (a :: as) _ ('\n' :: r) hpairs) (by simp)
      · rw [skip_ws _ (by decide), skip_nc _ (by decide) (by decide) (by decide)]
        exact litTok_single (by decide) _
  simp only [parseBlockCore, hident, hbrace, hexpr, hclose, hsem]

lemma globalBlock {o : UDMFObject} (ho : wfObj o = true) (r : List Char) :
    parseGlobalExpr (serObj o ++ r) = .ok (.blk o) ('\n' :: r) := by
  simp only [parseGlobalExpr, blockCore_run ho r]

/-! ## Closure lemmas for `global_expr_list` -/

lemma parseBlock_ws {c : Char} (hc : isWs c = true) (s : List Char) :
    parseBlock (c :: s) = parseBlock s := by
  rw [parseBlock, parseBlock, skip_ws _ hc]

lemma parseGlobalExpr_ws {c : Char} (hc : isWs c = true) (s : List Char) :
    parseGlobalExpr (c :: s) = parseGlobalExpr s := by
  simp only [parseGlobalExpr, parseBlock_ws hc, parseAssignment_ws hc]

lemma globalExpr_fail_nl : parseGlobalExpr ['\n'] = .fail := by
  have hb : parseBlock ['\n'] = .fail := by
    rw [parseBlock, skip_ws _ (by decide), skip_nil]
    rfl
  have ha : parseAssignment ['\n'] = .fail := by
    rw [parseAssignment, skip_ws _ (by decide), skip_nil]
    rfl
  simp only [parseGlobalExpr, hb, ha]

lemma gel_stop (f : Nat) : parseGEL (f + 1) ['\n'] = .ok [] ['\n'] := by
  rw [parseGEL]
  simp only [globalExpr_fail_nl]

lemma gel_ws {c : Char} (hc : isWs c = true) (f : Nat) {s : List Char}
    {l : List GNode} {r : List Char}
    (h : parseGEL f s = .ok l r) (hl : l ≠ []) :
    parseGEL f (c :: s) = .ok l r := by
  cases f with
  | zero => simp [parseGEL] at h
  | succ f =>
    rw [parseGEL] at h ⊢
    rw [parseGlobalExpr_ws hc]
    cases hpa : parseGlobalExpr s with
    | ok a r1 =>
      rw [hpa] at h
      exact h
    | fail =>
      rw [hpa] at h
      cases h
      exact absurd rfl hl
    | err e =>
      rw [hpa] at h
      cases h

lemma nodesRun : ∀ (ns : List UDMFObject) (f : Nat),
    (∀ o ∈ ns, wfObj o = true) →
    parseGEL (ns.length + (f + 1)) ('\n' :: joinNL (ns.map serObj)) =
      .ok (ns.map GNode.blk) ['\n'] := by
  intro ns
  induction ns with
  | nil =>
    intro f _
    simp only [List.length_nil, Nat.zero_add, List.map_nil, joinNL]
    exact gel_stop f
  | cons o os ih =>
    intro f hwf
    have ho := hwf o (by simp)
    have hwf2 : ∀ x ∈ os, wfObj x = true := fun x hx => hwf x (by simp [hx])
    cases os with
    | nil =>
      show parseGEL ([o].length + (f + 1)) ('\n' :: serObj o) = _
      rw [show ([o].length + (f + 1)) = (f + 1) + 1 by
        simp only [List.length_singleton]; omega]
      have hge : parseGlobalExpr ('\n' :: serObj o) = .ok (.blk o) ['\n'] := by
        rw [parseGlobalExpr_ws (by decide)]
        rw [show serObj o = serObj o ++ [] by simp]
        exact globalBlock ho []
      rw [parseGEL]
      simp only [hge, gel_stop]
      simp
    | cons o2 os2 =>
      show parseGEL ((o :: o2 :: os2).length + (f + 1))
          ('\n' :: (serObj o ++ '\n' :: joinNL ((o2 :: os2).map serObj))) = _
      rw [show ((o :: o2 :: os2).length + (f + 1)) =
          ((o2 :: os2).length + (f + 1)) + 1 by
        simp only [List.length_cons]; omega]
      have hge : parseGlobalExpr
          ('\n' :: (serObj o ++ '\n' :: joinNL ((o2 :: os2).map serObj))) =
          .ok (.blk o) ('\n' :: '\n' :: joinNL ((o2 :: os2).map serObj)) := by
        rw [parseGlobalExpr_ws (by decide)]
        exact globalBlock ho _
      have hrest : parseGEL ((o2 :: os2).length + (f + 1))
          ('\n' :: '\n' :: joinNL ((o2 :: os2).map serObj)) =
          .ok ((o2 :: os2).map GNode.blk) ['\n'] :=
        gel_ws (by decide) _ (ih f hwf2) (by simp)
      rw [parseGEL]
      simp only [hge, hrest]
      simp

lemma docRun : ∀ (ms : List (List Char × Value)) (ns : List UDMFObject) (f : Nat),
    (∀ p ∈ ms, wfMetaEntry p = true) → (∀ o ∈ ns, wfObj o = true) →
    parseGEL (ms.length + ns.length + (f + 1))
        (sepcat (ms.map (fun p => serAssign p.1 p.2))
          ('\n' :: joinNL (ns.map serObj))) =
      .ok (ms.map (fun p => GNode.asgn p.1 p.2) ++ ns.map GNode.blk) ['\n'] := by
  intro ms
  induction ms with
  | nil =>
    intro ns f _ hns
    simp only [List.length_nil, Nat.zero_add, List.map_nil, sepcat, List.nil_append]
    exact nodesRun ns f hns
  | cons m msr ih =>
    intro ns f hms hns
    have hm := hms m (by simp)
    have hm2 : identOK m.1 = true ∧ wfValue m.2 = true := by
      rw [wfMetaEntry] at hm
      simp only [Bool.and_eq_true] at hm
      exact hm
    have hms2 : ∀ p ∈ msr, wfMetaEntry p = true := fun p hp => hms p (by simp [hp])
    cases msr with
    | nil =>
      show parseGEL ([m].length + ns.length + (f + 1))
          (serAssign m.1 m.2 ++ ('\n' :: joinNL (ns.map serObj))) = _
      rw [show ([m].length + ns.length + (f + 1)) = (ns.length + (f + 1)) + 1 by
        simp only [List.length_singleton]; omega]
      rw [parseGEL]
      simp only [globalAssign hm2.1 hm2.2, nodesRun ns f hns]
      simp
    | cons m2 msr2 =>
      show parseGEL ((m :: m2 :: msr2).length + ns.length + (f + 1))
          (serAssign m.1 m.2 ++ '\n' ::
            sepcat ((m2 :: msr2).map (fun p => serAssign p.1 p.2))
              ('\n' :: joinNL (ns.map serObj))) = _
      rw [show ((m :: m2 :: msr2).length + ns.length + (f + 1)) =
          ((m2 :: msr2).length + ns.length + (f + 1)) + 1 by
        simp only [List.length_cons]; omega]
      have hrest : parseGEL ((m2 :: msr2).length + ns.length + (f + 1))
          ('\n' :: sepcat ((m2 :: msr2).map (fun p => serAssign p.1 p.2))
            ('\n' :: joinNL (ns.map serObj))) =
          .ok ((m2 :: msr2).map (fun p => GNode.asgn p.1 p.2) ++ ns.map GNode.blk)
            ['\n'] :=
        gel_ws (by decide) _ (ih ns f hms2 hns) (by simp)
      rw [parseGEL]
      simp only [globalAssign hm2.1 hm2.2, hrest]
      simp

/-! ## The document round trip -/

lemma serObj_ne_nil (o : UDMFObject) : serObj o ≠ [] := by
  simp [serObj]

lemma gLefts_blks : ∀ ns : List UDMFObject, gLefts (ns.map GNode.blk) = [] := by
  intro ns
  induction ns with
  | nil => rfl
  | cons o os ih => simp [gLefts]

lemma gRights_blks : ∀ ns : List UDMFObject, gRights (ns.map GNode.blk) = ns := by
  intro ns
  induction ns with
  | nil => rfl
  | cons o os ih => simpa [gRights] using ih

lemma gLefts_split (ms : List (List Char × Value)) (ns : List UDMFObject) :
    gLefts (ms.map (fun p => GNode.asgn p.1 p.2) ++ ns.map GNode.blk) = ms := by
  induction ms with
  | nil => exact gLefts_blks ns
  | cons m msr ih => simpa [gLefts] using ih

lemma gRights_split (ms : List (List Char × Value)) (ns : List UDMFObject) :
    gRights (ms.map (fun p => GNode.asgn p.1 p.2) ++ ns.map GNode.blk) = ns := by
  induction ms with
  | nil => exact gRights_blks ns
  | cons m msr ih => simpa [gRights] using ih

lemma wfDoc_parts {d : Doc} (hd : wfDoc d = true) :
    (∀ p ∈ d.meta, wfMetaEntry p = true) ∧ keysUnique d.meta = true ∧
      (∀ o ∈ d.nodes, wfObj o = true) := by
  rw [wfDoc] at hd
  simp only [Bool.and_eq_true, List.all_eq_true] at hd
  exact ⟨hd.1.1, hd.1.2, hd.2⟩

/-- Round trip of a well-formed document through the serializer and the
parser: `_parse(serialize())` reproduces the document exactly, including
every block's class, name, attribute order and attribute values, and the
global metadata. -/
lemma docRoundTrip {d : Doc} (hd : wfDoc d = true) :
    parseDoc (serDoc d) = .ok d := by
  obtain ⟨hms, hku, hns⟩ := wfDoc_parts hd
  have hs : serDoc d = sepcat (d.meta.map (fun p => serAssign p.1 p.2))
      ('\n' :: joinNL (d.nodes.map serObj)) := by
    rw [serDoc, sepcat_eq_joinNL]
  have hlenM : d.meta.length ≤
      (joinNL (d.meta.map (fun p => serAssign p.1 p.2))).length := by
    have hj := joinNL_length_ge (d.meta.map (fun p => serAssign p.1 p.2)) ?_
    · simpa using hj
    · intro x hx
      simp only [List.mem_map] at hx
      obtain ⟨p, _, hpx⟩ := hx
      rw [← hpx]
      exact serAssign_ne_nil p.1 p.2
  have hlenN : d.nodes.length ≤ (joinNL (d.nodes.map serObj)).length := by
    have hj := joinNL_length_ge (d.nodes.map serObj) ?_
    · simpa using hj
    · intro x hx
      simp only [List.mem_map] at hx
      obtain ⟨o, _, hox⟩ := hx
      rw [← hox]
      exact serObj_ne_nil o
  have hlen : (sepcat (d.meta.map (fun p => serAssign p.1 p.2))
      ('\n' :: joinNL (d.nodes.map serObj))).length =
      (joinNL (d.meta.map (fun p => serAssign p.1 p.2))).length + 1 +
        (joinNL (d.nodes.map serObj)).length := by
    rw [sepcat_eq_joinNL]
    simp only [List.length_append, List.length_cons]
    omega
  have hgel : parseGEL ((sepcat (d.meta.map (fun p => serAssign p.1 p.2))
      ('\n' :: joinNL (d.nodes.map serObj))).length + 1)
      (sepcat (d.meta.map (fun p => serAssign p.1 p.2))
        ('\n' :: joinNL (d.nodes.map serObj))) =
      .ok (d.meta.map (fun p => GNode.asgn p.1 p.2) ++ d.nodes.map GNode.blk)
        ['\n'] := by
    rw [show (sepcat (d.meta.map (fun p => serAssign p.1 p.2))
        ('\n' :: joinNL (d.nodes.map serObj))).length + 1 =
        d.meta.length + d.nodes.length +
          (((sepcat (d.meta.map (fun p => serAssign p.1 p.2))
            ('\n' :: joinNL (d.nodes.map serObj))).length -
            d.meta.length - d.nodes.length) + 1) by
      rw [hlen]
      omega]
    exact docRun d.meta d.nodes _ hms hns
  rw [parseDoc, udmfParse, hs, hgel]
  simp [show skip ['\n'] = [] from rfl, gLefts_split, gRights_split, dictFold_id hku]

/-! ## Loader lemmas -/

lemma findMapAux_some (name : List Char) : ∀ (l : List (List Char)) (i j : Nat),
    findMapAux name i l = some j →
    ∃ m, j = i + m ∧ pairAtL l m name ∧ ∀ m2 < m, ¬pairAtL l m2 name := by
  intro l
  induction l with
  | nil => intro i j h; simp [findMapAux] at h
  | cons e1 tail ih =>
    intro i j h
    cases tail with
    | nil => simp [findMapAux] at h
    | cons e2 rest =>
      rw [findMapAux] at h
      split at h
      · rename_i hcond
        cases h
        refine ⟨0, by omega, ⟨by simp [hcond.2], by simp [hcond.1]⟩, by omega⟩
      · rename_i hcond
        obtain ⟨m, hj, hpair, hleast⟩ := ih (i + 1) j h
        refine ⟨m + 1, by omega, ?_, ?_⟩
        · obtain ⟨hp1, hp2⟩ := hpair
          exact ⟨by simpa using hp1, by simpa using hp2⟩
        · intro m2 hm2
          cases m2 with
          | zero =>
            intro hp
            obtain ⟨hp1, hp2⟩ := hp
            simp at hp1 hp2
            exact hcond ⟨hp2, hp1⟩
          | succ m3 =>
            intro hp
            obtain ⟨hp1, hp2⟩ := hp
            exact hleast m3 (by omega) ⟨by simpa using hp1, by simpa using hp2⟩

lemma findMapAux_none (name : List Char) : ∀ (l : List (List Char)) (i : Nat),
    findMapAux name i l = none → ∀ m, ¬pairAtL l m name := by
  intro l
  induction l with
  | nil =>
    intro i _ m hp
    obtain ⟨hp1, _⟩ := hp
    simp at hp1
  | cons e1 tail ih =>
    intro i h m hp
    cases tail with
    | nil =>
      obtain ⟨_, hp2⟩ := hp
      cases m with
      | zero => simp at hp2
      | succ m2 => simp at hp2
    | cons e2 rest =>
      rw [findMapAux] at h
      split at h
      · cases h
      · rename_i hcond
        obtain ⟨hp1, hp2⟩ := hp
        cases m with
        | zero =>
          simp at hp1 hp2
          exact hcond ⟨hp2, hp1⟩
        | succ m2 =>
          exact ih (i + 1) h m2 ⟨by simpa using hp1, by simpa using hp2⟩

/-- `findMap` selects exactly the least pairing index. -/
lemma findMap_some {w : List (List Char × List Char)} {name : List Char}
    {i : Nat} (h : findMap w name = some i) :
    pairAt w name i ∧ ∀ j < i, ¬pairAt w name j := by
  obtain ⟨m, hm, hp, hleast⟩ := findMapAux_some name (w.map Prod.fst) 0 i h
  have hmi : m = i := by omega
  subst hmi
  exact ⟨hp, fun j hj => hleast j hj⟩

lemma findMap_none {w : List (List Char × List Char)} {name : List Char}
    (h : findMap w name = none) : ∀ i, ¬pairAt w name i :=
  fun i => findMapAux_none name (w.map Prod.fst) 0 h i

lemma load_ok_parts {w : List (List Char × List Char)} {name : List Char}
    {ed : Editor} (h : load w name = .ok ed) :
    ed.wad = w ∧ ed.name = name ∧ findMap w name = some ed.index ∧
      spanText w ed.index = some ed.data ∧ ed.data ≠ [] ∧
      ∃ ns, udmfParse ed.data = .ok ns ∧ ed.meta = dictFold (gLefts ns) ∧
        ed.nodes = gRights ns := by
  cases hf : findMap w name with
  | none =>
    rw [load] at h
    simp only [hf] at h
    cases h
  | some i =>
    rw [load] at h
    simp only [hf] at h
    by_cases hn : name = []
    · rw [if_pos hn] at h
      cases h
    · rw [if_neg hn] at h
      cases hs : spanText w i with
      | none =>
        simp only [hs] at h
        cases h
      | some d =>
        simp only [hs] at h
        by_cases hd : d = []
        · rw [if_pos hd] at h
          cases h
        · rw [if_neg hd] at h
          cases hp : udmfParse d with
          | error e =>
            simp only [hp] at h
            cases h
          | ok ns =>
            simp only [hp] at h
            cases h
            exact ⟨rfl, rfl, rfl, hs, hd, ns, hp, rfl, rfl⟩

/-- `load` raises the not-found error exactly when no pair matches or the
first matching pair fails the `if not self.name or not self.data` check. -/
lemma load_notFound_iff (w : List (List Char × List Char)) (name : List Char) :
    load w name = .error .notFound ↔
      (∀ i, ¬pairAt w name i) ∨
      (∃ i, pairAt w name i ∧ (∀ j < i, ¬pairAt w name j) ∧
        (name = [] ∨ spanText w i = none ∨ spanText w i = some [])) := by
  cases hf : findMap w name with
  | none =>
    rw [load]
    simp only [hf]
    exact ⟨fun _ => Or.inl (findMap_none hf), fun _ => by trivial⟩
  | some i =>
    obtain ⟨hpair, hleast⟩ := findMap_some hf
    have huniq : ∀ i2, pairAt w name i2 → (∀ j < i2, ¬pairAt w name j) → i2 = i := by
      intro i2 hp2 hl2
      by_contra hne
      rcases Nat.lt_or_ge i2 i with hlt | hge
      · exact hleast i2 hlt hp2
      · exact hl2 i (by omega) hpair
    by_cases hn : name = []
    · rw [load]
      simp only [hf, if_pos hn]
      exact ⟨fun _ => Or.inr ⟨i, hpair, hleast, Or.inl hn⟩, fun _ => by trivial⟩
    · cases hs : spanText w i with
      | none =>
        rw [load]
        simp only [hf, if_neg hn, hs]
        exact ⟨fun _ => Or.inr ⟨i, hpair, hleast, Or.inr (Or.inl hs)⟩,
          fun _ => by trivial⟩
      | some d =>
        by_cases hd : d = []
        · subst hd
          rw [load]
          simp only [hf, if_neg hn, hs, if_pos rfl]
          exact ⟨fun _ => Or.inr ⟨i, hpair, hleast, Or.inr (Or.inr hs)⟩,
            fun _ => by trivial⟩
        · have hnotRHS : ¬((∀ i2, ¬pairAt w name i2) ∨
              (∃ i2, pairAt w name i2 ∧ (∀ j < i2, ¬pairAt w name j) ∧
                (name = [] ∨ spanText w i2 = none ∨ spanText w i2 = some []))) := by
            intro hRHS
            cases hRHS with
            | inl hall => exact hall i hpair
            | inr hex =>
              obtain ⟨i2, hp2, hl2, hbad⟩ := hex
              have hi2 : i2 = i := huniq i2 hp2 hl2
              subst hi2
              cases hbad with
              | inl hb => exact hn hb
              | inr hb =>
                cases hb with
                | inl hb => rw [hb] at hs; cases hs
                | inr hb =>
                  rw [hb] at hs
                  cases hs
                  exact hd rfl
          cases hp : udmfParse d with
          | error e =>
            rw [load]
            simp only [hf, if_neg hn, hs, if_neg hd, hp]
            constructor
            · intro hcontra
              cases hcontra
            · intro hRHS
              exact absurd hRHS hnotRHS
          | ok ns =>
            rw [load]
            simp only [hf, if_neg hn, hs, if_neg hd, hp]
            constructor
            · intro hcontra
              cases hcontra
            · intro hRHS
              exact absurd hRHS hnotRHS

/-! ## Save lemmas -/

lemma saveAux_length (nd : List Char) (tidx : Nat) :
    ∀ (w : List (List Char × List Char)) (base : Nat),
    (saveAux nd tidx base w).length = w.length := by
  intro w
  induction w with
  | nil => intro base; rfl
  | cons q rest ih =>
    intro base
    obtain ⟨nm, bytes⟩ := q
    rw [saveAux]
    simp [ih (base + 1)]

lemma saveAux_getElem (nd : List Char) (tidx : Nat) :
    ∀ (w : List (List Char × List Char)) (base k : Nat),
    (saveAux nd tidx base w)[k]? =
      (w[k]?).map (fun p => (p.1, if base + k = tidx then nd else p.2)) := by
  intro w
  induction w with
  | nil => intro base k; simp [saveAux]
  | cons q rest ih =>
    intro base k
    obtain ⟨nm, bytes⟩ := q
    rw [saveAux]
    cases k with
    | zero => simp
    | succ k2 =>
      simp only [List.getElem?_cons_succ]
      rw [ih (base + 1) k2]
      simp only [show ∀ t : Nat, base + 1 + k2 = t ↔ base + (k2 + 1) = t from
        fun t => by omega]

/-! ## Claims

Each claim of the specification is settled by one theorem below. -/

/-- C1 (counterexample).  The round-trip claim fails as stated: the
document `docFalse` carries only a boolean attribute (`a = false`), yet
`parse(serialize(doc))` yields a document whose attribute value is
`true`, because `UDMFSemantics.boolean` applies Python `bool()` to the
lexeme and `bool('false')` is `True`. -/
theorem c1_round_trip_counterexample :
    parseDoc (serDoc docFalse) = .ok docFalseFlipped ∧
      docFalseFlipped ≠ docFalse := by
  constructor
  · rfl
  · decide

/-- C1 (amended).  For every document whose blocks and global metadata
carry only integer, boolean-`true`, or quote-and-backslash-free string
attributes under identifier keys other than `name`, with unique keys and
registry-consistent block classes, parsing the serialized text
reproduces the document exactly: block type-tags, attribute names,
attribute order, attribute values and global metadata. -/
theorem c1_round_trip_amended (d : Doc) (hd : wfDoc d = true) :
    parseDoc (serDoc d) = .ok d :=
  docRoundTrip hd

/-- C1 (witness): the amended round trip at a concrete document with
integer, negative-integer, string and boolean-`true` attributes. -/
theorem c1_round_trip_amended_witness :
    wfDoc docWit = true ∧ parseDoc (serDoc docWit) = .ok docWit :=
  ⟨by decide, c1_round_trip_amended docWit (by decide)⟩

/-- C2.  For every snapshot and every successfully loaded map, `save`
emits exactly one record per snapshot record, in original order with the
original names; every index other than `index + 1` keeps its snapshot
bytes, and index `index + 1` receives the freshly serialized document. -/
theorem c2_save_non_collateral (w : List (List Char × List Char))
    (name : List Char) (ed : Editor) (h : load w name = .ok ed) :
    (save ed).length = w.length ∧
    ∀ i : Nat,
      ((save ed)[i]?).map Prod.fst = (w[i]?).map Prod.fst ∧
      (¬(i = ed.index + 1) → (save ed)[i]? = w[i]?) ∧
      (i = ed.index + 1 →
        (save ed)[i]? = (w[i]?).map (fun p => (p.1, serEditor ed))) := by
  have hwad : ed.wad = w := (load_ok_parts h).1
  constructor
  · rw [save, hwad]
    exact saveAux_length _ _ w 0
  · intro i
    have hget := saveAux_getElem (serEditor ed) (ed.index + 1) w 0 i
    simp only [Nat.zero_add] at hget
    refine ⟨?_, ?_, ?_⟩
    · rw [save, hwad, hget]
      cases w[i]? with
      | none => rfl
      | some p => rfl
    · intro hne
      rw [save, hwad, hget]
      cases w[i]? with
      | none => rfl
      | some p => simp [hne]
    · intro heq
      rw [save, hwad, hget, heq]
      simp

/-- C2 (witness): saving the map loaded from `wadTwo` touches only the
record at index 1. -/
theorem c2_save_non_collateral_witness :
    (save edTwo).length = wadTwo.length ∧
    ∀ i : Nat,
      ((save edTwo)[i]?).map Prod.fst = (wadTwo[i]?).map Prod.fst ∧
      (¬(i = edTwo.index + 1) → (save edTwo)[i]? = wadTwo[i]?) ∧
      (i = edTwo.index + 1 →
        (save edTwo)[i]? = (wadTwo[i]?).map (fun p => (p.1, serEditor edTwo))) :=
  c2_save_non_collateral wadTwo ("MAP01".data) edTwo (by rfl)

/-- C3 (counterexample).  The lexeme `1abc` in `a = 1abc;` is unquoted,
not a numeric literal and not a boolean, yet parsing does not fail with
an unsupported-value error naming it: the `integer` alternative consumes
the prefix `1`, the following `;` check fails, and the parse aborts with
a plain syntax failure that names no token. -/
theorem c3_keyword_counterexample :
    udmfParse ("a = 1abc;".data) = .error .failed ∧
      PErr.failed ≠ PErr.unsupportedKeyword ("1abc".data) := by
  constructor
  · rfl
  · decide

/-- C3 (amended).  Whenever the value position of an assignment holds a
bare keyword token on which the float, integer, quoted-string and
boolean alternatives all fail (and which the token skipper leaves in
place), parsing fails with the unsupported-value error naming exactly
that token, and no document is produced. -/
theorem c3_keyword_amended (tok : List Char)
    (hskip : skip (tok ++ [';']) = tok ++ [';'])
    (hf : matchFloat (tok ++ [';']) = none)
    (hi : matchInt (tok ++ [';']) = none)
    (hq : matchQuoted (tok ++ [';']) = none)
    (hb : matchBool (tok ++ [';']) = none)
    (hk : matchKeyword (tok ++ [';']) = some (tok, [';'])) :
    udmfParse ('a' :: ' ' :: '=' :: ' ' :: (tok ++ [';'])) =
      .error (.unsupportedKeyword tok) := by
  have hsk : skip ('a' :: ' ' :: '=' :: ' ' :: (tok ++ [';'])) =
      'a' :: ' ' :: '=' :: ' ' :: (tok ++ [';']) :=
    skip_nc _ (by decide) (by decide) (by decide)
  have hident : matchIdent ('a' :: ' ' :: '=' :: ' ' :: (tok ++ [';'])) =
      some (['a'], ' ' :: '=' :: ' ' :: (tok ++ [';'])) := by
    show matchIdent (['a'] ++ ' ' :: ('=' :: ' ' :: (tok ++ [';']))) = _
    exact matchIdent_run (by decide) (by decide) _
  have hblock : parseBlock ('a' :: ' ' :: '=' :: ' ' :: (tok ++ [';'])) = .fail := by
    rw [parseBlock, hsk]
    have hbr : litTok ['{'] (skip (' ' :: '=' :: ' ' :: (tok ++ [';']))) = none := by
      rw [skip_eqsign]
      exact litTok_head_none _ _ (by decide)
    simp only [parseBlockCore, hident, hbr]
  have hval : parseValue (' ' :: (tok ++ [';'])) =
      .err (.unsupportedKeyword tok) := by
    rw [parseValue, skip_ws _ (by decide), hskip]
    simp only [parseValueCore, hf, hi, hq, hb, hk]
  have hassign : parseAssignment ('a' :: ' ' :: '=' :: ' ' :: (tok ++ [';'])) =
      .err (.unsupportedKeyword tok) := by
    rw [parseAssignment, hsk]
    have heqT : litTok ['='] (skip (' ' :: '=' :: ' ' :: (tok ++ [';']))) =
        some (' ' :: (tok ++ [';'])) := by
      rw [skip_eqsign]
      exact litTok_single (by decide) _
    simp only [parseAssignCore, hident, heqT, hval]
  have hge : parseGlobalExpr ('a' :: ' ' :: '=' :: ' ' :: (tok ++ [';'])) =
      .err (.unsupportedKeyword tok) := by
    simp only [parseGlobalExpr, hblock, hassign]
  rw [udmfParse, parseGEL]
  simp only [hge]

/-- C3 (witness): the spec's example token `SOMEVALUE` triggers the
unsupported-value error that names it. -/
theorem c3_keyword_amended_witness :
    udmfParse ('a' :: ' ' :: '=' :: ' ' :: ("SOMEVALUE".data ++ [';'])) =
      .error (.unsupportedKeyword ("SOMEVALUE".data)) :=
  c3_keyword_amended ("SOMEVALUE".data) (by decide) (by decide) (by decide)
    (by decide) (by decide) (by decide)

/-- C4.  The boolean semantic action applies Python truthiness to the
matched lexeme, so both `true` and `false` parse to the value `true`:
`bool('false')` is `True` because the string is nonempty.  The claim's
`false → false` direction is what the serializer's own inverse mapping
(`'true' if value else 'false'`) expects, so the code contradicts its
own round-trip intent at the input `a = false;`. -/
theorem c4_boolean_bug :
    udmfParse ("a = false;".data) =
        .ok [GNode.asgn ("a".data) (Value.vbool true)] ∧
      udmfParse ("a = true;".data) =
        .ok [GNode.asgn ("a".data) (Value.vbool true)] := by
  constructor
  · rfl
  · rfl

/-- C5.  Plain decimal literals parse to the denoted integer, but the
leading-zero and hexadecimal forms of the grammar are unreachable: the
`'0'` literal token (not protected by tatsu's `nameguard`, which only
guards tokens starting with a letter) consumes the bare `0`, the ordered
choice commits, and the subsequent `;` check fails, so `a = 0123;` and
`a = 0x1F;` are syntax errors instead of the integers 123 and 31. -/
theorem c5_integer_bug :
    udmfParse ("a = 123;".data) = .ok [GNode.asgn ("a".data) (Value.vint 123)] ∧
      udmfParse ("a = -42;".data) = .ok [GNode.asgn ("a".data) (Value.vint (-42))] ∧
      udmfParse ("a = 0;".data) = .ok [GNode.asgn ("a".data) (Value.vint 0)] ∧
      udmfParse ("a = 0123;".data) = .error .failed ∧
      udmfParse ("a = 0x1F;".data) = .error .failed := by
  refine ⟨rfl, rfl, rfl, rfl, rfl⟩

/-- C6 (counterexample).  Parsing `a = "x\"y";` yields the five
characters `x\"y` with the backslash kept: `UDMFSemantics.quoted_string`
only strips the surrounding quotes (`ast[1:-1]`) and never resolves
escape sequences, contrary to the claim that `\<char>` becomes
`<char>`. -/
theorem c6_escape_counterexample :
    udmfParse ("a = \"x\\\"y\";".data) =
        .ok [GNode.asgn ("a".data) (Value.vstr ("x\\\"y".data))] ∧
      ("x\\\"y".data) ≠ ("x\"y".data) := by
  constructor
  · rfl
  · decide

/-- C6 (amended).  Parsing a quoted string yields the text between the
quotes verbatim: escape pairs `\<char>` are kept as written (the
backslash is not stripped); only the two delimiting quotes are
removed. -/
theorem c6_escape_amended (b : List Char) (hb : qbOK b = true) (r : List Char) :
    parseValue ('"' :: (b ++ '"' :: r)) = .ok (.vstr b) r := by
  rw [parseValue, skip_nc _ (by decide) (by decide) (by decide)]
  have h1 : matchFloat ('"' :: (b ++ '"' :: r)) = none :=
    matchFloat_none_head (by decide) (by decide) (by decide) _
  have h2 : matchInt ('"' :: (b ++ '"' :: r)) = none :=
    matchInt_none_head (by decide) (by decide) (by decide) _
  have h3 := matchQuoted_run hb r
  simp only [parseValueCore, h1, h2, h3, pySlice_quotes]

/-- C6 (witness): the amended statement at the escaped body `x\"y`. -/
theorem c6_escape_amended_witness :
    parseValue ('"' :: (('x' :: '\\' :: '"' :: 'y' :: []) ++ '"' :: [';'])) =
      .ok (.vstr ('x' :: '\\' :: '"' :: 'y' :: [])) [';'] :=
  c6_escape_amended ('x' :: '\\' :: '"' :: 'y' :: []) (by decide) [';']

/-- C7.  Line comments are skipped, but C-style block comments are not:
the `@@comments` pattern is over-escaped (`\\\*` matches a literal
backslash before the `*`), so `/* ... */` is not recognised and an
otherwise valid input containing one fails with a syntax error, while
the unintended form `\* ... */` is silently skipped. -/
theorem c7_comment_bug :
    udmfParse ("a = 1;".data) = .ok [GNode.asgn ("a".data) (Value.vint 1)] ∧
      udmfParse ("a = 1; /* c */".data) = .error .failed ∧
      udmfParse ("a = 1; // c".data) = .ok [GNode.asgn ("a".data) (Value.vint 1)] ∧
      udmfParse ("a = 1; \\* c */".data) =
        .ok [GNode.asgn ("a".data) (Value.vint 1)] := by
  refine ⟨rfl, rfl, rfl, rfl⟩

/-- C8.  A successful `load` selects the pair with the smallest header
index: the loaded index is a header/`TEXTMAP` pair matching the
requested name, no smaller index is, and the document is parsed from the
text extracted from that pair's span only — later same-named maps
contribute nothing. -/
theorem c8_first_match (w : List (List Char × List Char)) (name : List Char)
    (ed : Editor) (h : load w name = .ok ed) :
    pairAt w name ed.index ∧ (∀ j < ed.index, ¬pairAt w name j) ∧
      spanText w ed.index = some ed.data ∧
      ∃ ns, udmfParse ed.data = .ok ns ∧ ed.nodes = gRights ns ∧
        ed.meta = dictFold (gLefts ns) := by
  obtain ⟨_, _, hfind, hspan, _, ns, hp, hm, hn⟩ := load_ok_parts h
  obtain ⟨hpair, hleast⟩ := findMap_some hfind
  exact ⟨hpair, hleast, hspan, ns, hp, hn, hm⟩

/-- C8 (witness): loading `MAP01` from a snapshot with two `MAP01` maps
selects index 0 and parses the first map's text. -/
theorem c8_first_match_witness :
    pairAt wadTwo ("MAP01".data) edTwo.index ∧
      (∀ j < edTwo.index, ¬pairAt wadTwo ("MAP01".data) j) ∧
      spanText wadTwo edTwo.index = some edTwo.data ∧
      ∃ ns, udmfParse edTwo.data = .ok ns ∧ edTwo.nodes = gRights ns ∧
        edTwo.meta = dictFold (gLefts ns) :=
  c8_first_match wadTwo ("MAP01".data) edTwo (by rfl)

/-- C9 (counterexample).  `load` can fail with the not-found error even
though a header/`TEXTMAP` pair with the requested name exists: when the
matching `TEXTMAP` lump is empty, the sanity check
`if not self.name or not self.data` raises the same
`IOError("Unable to find an UDMF map")`. -/
theorem c9_notfound_counterexample :
    pairAt wadEmptyText ("MAP01".data) 0 ∧
      load wadEmptyText ("MAP01".data) = .error .notFound := by
  constructor
  · exact ⟨rfl, rfl⟩
  · rfl

/-- C9 (amended).  `load(name)` fails with the not-found error if and
only if either no record named `name` is immediately followed by a
`TEXTMAP` record, or the first such pair yields an unusable result: the
requested name is empty, or the span scan finds no text, or the
extracted text is empty.  (In the no-pair case the scan runs to the end
of the snapshot before the error is raised.) -/
theorem c9_notfound_amended (w : List (List Char × List Char)) (name : List Char) :
    load w name = .error .notFound ↔
      (∀ i, ¬pairAt w name i) ∨
      (∃ i, pairAt w name i ∧ (∀ j < i, ¬pairAt w name j) ∧
        (name = [] ∨ spanText w i = none ∨ spanText w i = some [])) :=
  load_notFound_iff w name

/-- C10.  When a block body assigns the attribute literally named
`name`, the constructed object's stored type name is that assignment's
value (the dict value, i.e. the last such assignment) instead of the
block's source identifier, and `serialize()` emits that value as the
block's type-name line; the source identifier appears nowhere in the
object's `name` field. -/
theorem c10_name_override (id : List Char) (assigns : List (List Char × Value))
    (v : Value) (h : assocLookup (dictFold assigns) ("name".data) = some v) :
    (blockSemantics id assigns).name = v ∧
    ∃ rest, serObj (blockSemantics id assigns) =
      pyStrValue v ++ '\n' :: '{' :: '\n' :: rest := by
  have hname : (blockSemantics id assigns).name = v := by
    rw [blockSemantics, mkUDMFObject]
    simp only [h]
  refine ⟨hname, joinNL ((blockSemantics id assigns).attrs.map
    (fun p => serAssign p.1 p.2)) ++ '\n' :: '}' :: '\n' :: [], ?_⟩
  rw [serObj, hname]
  simp

/-- C10 (witness): a `thing` block whose body assigns `name = "foo"`
serializes with `foo` as its type-name line. -/
theorem c10_name_override_witness :
    (blockSemantics ("thing".data)
        [("name".data, Value.vstr ("foo".data))]).name =
      Value.vstr ("foo".data) ∧
    ∃ rest, serObj (blockSemantics ("thing".data)
        [("name".data, Value.vstr ("foo".data))]) =
      pyStrValue (Value.vstr ("foo".data)) ++ '\n' :: '{' :: '\n' :: rest :=
  c10_name_override ("thing".data) [("name".data, Value.vstr ("foo".data))]
    (Value.vstr ("foo".data)) (by rfl)

end UDMF
